import Mathlib

/-!
Verification development for the kafero repository, centred on the
size-bounded cache overlay (SizeCacheFS, part_009 of the source) and its
file handle (SizeCacheFile, part_004), together with the zstd compression
overlay (zstfs).  The Go code is shallowly embedded: the two storage tiers
are modelled as in-memory inode stores (matching the MemMapFs backend used
by the repository's tests: removing a path unlinks the directory entry but
open handles keep their inode), paths are modelled as lists of components
(filepath.Dir drops the last component), machine integers as Int, and the
wall clock as a logical counter advanced at every operation.  Directories
are not materialised: every claim under consideration restricts itself to
regular files, and all concrete traces use single-component paths, for
which the parent-directory code paths of the source are provably inert.
-/

namespace Kafero

/-- A path is a list of components; filepath.Dir is dropLast, and the
root/"." is the empty list. -/
abbrev Path := List Nat

/-- Model of filepath.Dir for clean relative paths. -/
def dirOf (p : Path) : Path := p.dropLast

/-- Lexicographic strict order on paths, standing in for Go string order
on slash-joined paths (used by the sortedset tie-break). -/
def pathLtB : Path → Path → Bool
  | [], [] => false
  | [], _ :: _ => true
  | _ :: _, [] => false
  | a :: as, b :: bs => a < b || (a == b && pathLtB as bs)

/-- File contents are byte lists (bytes abstracted to Nat). -/
abbrev Bytes := List Nat

/-- An inode: file data plus a modification time. -/
structure Inode where
  data : Bytes
  mtime : Int
deriving Repr, DecidableEq

/-- One tier (base or cache) of the overlay: a directory mapping paths to
inode ids, an inode store, and a fresh-id counter.  The store is never
garbage collected, so handles that outlive an unlink still resolve, as in
MemMapFs. -/
structure Tier where
  dir : List (Path × Nat)
  store : List (Nat × Inode)
  nextId : Nat
deriving Repr, DecidableEq

/-- Association-list lookup by path key (first match). -/
def flookup (d : List (Path × Nat)) (p : Path) : Option Nat :=
  match d with
  | [] => none
  | (q, i) :: rest => if q = p then some i else flookup rest p

/-- Association-list update by path key: replace the first binding, or
append a fresh one. -/
def fset (d : List (Path × Nat)) (p : Path) (i : Nat) : List (Path × Nat) :=
  match d with
  | [] => [(p, i)]
  | (q, j) :: rest => if q = p then (p, i) :: rest else (q, j) :: fset rest p i

/-- Association-list removal by path key (first binding only). -/
def ferase (d : List (Path × Nat)) (p : Path) : List (Path × Nat) :=
  match d with
  | [] => []
  | (q, j) :: rest => if q = p then rest else (q, j) :: ferase rest p

/-- Inode-store lookup by id. -/
def slookup (st : List (Nat × Inode)) (i : Nat) : Option Inode :=
  match st with
  | [] => none
  | (j, ino) :: rest => if j = i then some ino else slookup rest i

/-- Inode-store update by id. -/
def sset (st : List (Nat × Inode)) (i : Nat) (ino : Inode) : List (Nat × Inode) :=
  match st with
  | [] => [(i, ino)]
  | (j, ino0) :: rest => if j = i then (i, ino) :: rest else (j, ino0) :: sset rest i ino

/-- The empty tier. -/
def emptyTier : Tier := { dir := [], store := [], nextId := 0 }

/-- Stat a path in a tier: resolve the directory entry, then the inode. -/
def tierStat (t : Tier) (p : Path) : Option Inode :=
  match flookup t.dir p with
  | none => none
  | some i => slookup t.store i

/-- Does a path exist in a tier (model of kafero.Exists for file paths)? -/
def tierExists (t : Tier) (p : Path) : Bool :=
  (flookup t.dir p).isSome

/-- Create a file in a tier: a fresh empty inode replaces any existing
binding at the path (MemMapFs.Create registers new file data; a previous
inode is orphaned but kept in the store for open handles). -/
def tierCreate (t : Tier) (p : Path) (now : Int) : Tier × Nat :=
  ({ dir := fset t.dir p t.nextId
   , store := sset t.store t.nextId { data := [], mtime := now }
   , nextId := t.nextId + 1 }, t.nextId)

/-- Remove a path from a tier.  Returns none when the path is absent
(os.ErrNotExist); the inode stays in the store for open handles. -/
def tierRemove (t : Tier) (p : Path) : Option Tier :=
  if (flookup t.dir p).isSome then
    some { t with dir := ferase t.dir p }
  else
    none

/-- Tolerant removal: os.ErrNotExist is swallowed by the caller. -/
def tierRemoveD (t : Tier) (p : Path) : Tier :=
  match tierRemove t p with
  | some t2 => t2
  | none => t

/-- Update the inode bound at a path, when present. -/
def tierSetInode (t : Tier) (p : Path) (ino : Inode) : Tier :=
  match flookup t.dir p with
  | none => t
  | some i => { t with store := sset t.store i ino }

/-- Chtimes on a tier: best effort, updates the mtime when the path
exists (the overlay swallows the error otherwise). -/
def tierChtimes (t : Tier) (p : Path) (mtime : Int) : Tier :=
  match tierStat t p with
  | none => t
  | some ino => tierSetInode t p { ino with mtime := mtime }

/-- Errors surfaced by the model, mirroring the error kinds of the Go
code (os.ErrNotExist, syscall.EIO, syscall.EPERM, wrapped fmt.Errorf
messages, json unmarshalling failure, closed files, nil dereference). -/
inductive Err where
  | notExist
  | eio
  | eperm
  | wrapped
  | unmarshal
  | alreadyClosed
  | nilDeref
deriving Repr, DecidableEq

/-! ## The cache index (model of wangjia184/sortedset as used by the overlay)

The sorted set keyed by path and scored by last-access time is modelled as
a duplicate-free list of entries; PopMin selects the entry with the least
(score, path) pair, matching the redis-style tie-break of the library. -/

/-- One index entry (Go struct cacheFile in part_009). -/
structure CacheEntry where
  path : Path
  size : Int
  lastAccessTime : Int
deriving Repr, DecidableEq

/-- GetByKey. -/
def findEntry (l : List CacheEntry) (p : Path) : Option CacheEntry :=
  match l with
  | [] => none
  | e :: rest => if e.path = p then some e else findEntry rest p

/-- Remove (first binding of the key). -/
def eraseKey (l : List CacheEntry) (p : Path) : List CacheEntry :=
  match l with
  | [] => []
  | e :: rest => if e.path = p then rest else e :: eraseKey rest p

/-- AddOrUpdate: replace the entry at the key, or append a new one. -/
def addOrUpdate (l : List CacheEntry) (e : CacheEntry) : List CacheEntry :=
  match l with
  | [] => [e]
  | x :: rest => if x.path = e.path then e :: rest else x :: addOrUpdate rest e

/-- Ordering used by the sorted set: ascending last-access time, paths
breaking ties lexicographically. -/
def entLeB (a b : CacheEntry) : Bool :=
  a.lastAccessTime < b.lastAccessTime ||
    (a.lastAccessTime == b.lastAccessTime && !(pathLtB b.path a.path))

/-- PopMin: select and remove the least-scored entry. -/
def popMin : List CacheEntry → Option (CacheEntry × List CacheEntry)
  | [] => none
  | e :: rest =>
    match popMin rest with
    | none => some (e, [])
    | some (m, r) => if entLeB e m then some (e, rest) else some (m, e :: r)

/-- Sum of the Size fields of the index entries. -/
def sumSizes (l : List CacheEntry) : Int :=
  (l.map (fun e => e.size)).sum

/-- Paths of the index entries. -/
def pathsOf (l : List CacheEntry) : List Path :=
  l.map (fun e => e.path)

/-! Open-flag constants (Go os package values on linux/amd64). -/

def O_RDONLY : Nat := 0
def O_WRONLY : Nat := 1
def O_RDWR : Nat := 2
def O_CREATE : Nat := 64
def O_TRUNC : Nat := 512
def O_APPEND : Nat := 1024

end Kafero

namespace Zstfs

open Kafero

/-! ## Compression overlay (src/zstfs)

Model of zstfs.File as far as the write/read gating logic goes: the flag
the handle carries, the closed bit, and whether a streaming reader or
writer has been instantiated.  fs.go builds the File literal without
populating the flag field, so the Go zero value 0 (= os.O_RDONLY) is what
Write inspects. -/

structure ZFile where
  flag : Nat
  closed : Bool
  hasReader : Bool
  hasWriter : Bool
deriving Repr, DecidableEq

/-- Fs.OpenFile in src/zstfs/fs.go: the File literal omits the flag field,
so the handle's flag is the zero value 0, not the requested flag. -/
def zstOpenFile (_requestedFlag : Nat) : ZFile :=
  { flag := 0, closed := false, hasReader := false, hasWriter := false }

/-- Fs.Create in src/zstfs/fs.go: likewise omits the flag field. -/
def zstCreate : ZFile :=
  { flag := 0, closed := false, hasReader := false, hasWriter := false }

/-- File.Write in src/zstfs/file.go: flag gate first, then the closed
check, then the reader/writer exclusion; a successful write instantiates
the streaming writer. -/
def zstWrite (f : ZFile) (b : Bytes) : Except Err (ZFile × Nat) :=
  if f.flag &&& O_WRONLY = 0 ∧ f.flag &&& O_RDWR = 0 then
    .error .eperm
  else if f.closed then
    .error .alreadyClosed
  else if f.hasReader then
    .error .eperm
  else
    .ok ({ f with hasWriter := true }, b.length)

/-- File.Read in src/zstfs/file.go: closed check, then the writer
exclusion; a successful read instantiates the streaming reader. -/
def zstRead (f : ZFile) (n : Nat) : Except Err (ZFile × Nat) :=
  if f.closed then
    .error .alreadyClosed
  else if f.hasWriter then
    .error .eperm
  else
    .ok ({ f with hasReader := true }, n)

end Zstfs

namespace Kafero

/-! ## The size-bounded cache overlay (src/unnamed/part_009, part_004)

State of a SizeCacheFS value plus the SizeCacheFile handles it has handed
out.  The logical clock advances at the start of every operation and
stands in for time.Now(). -/

/-- Cache status classification (cacheState constants). -/
inductive CacheState where
  | cacheHit
  | cacheLocal
  | cacheStale
  | cacheMiss
deriving Repr, DecidableEq

/-- An open SizeCacheFile handle: the two underlying tier files (the base
one may be nil when u.base.Open failed inside Open), the caller's flags,
and the detached index entry it carries. -/
structure HState where
  path : Path
  flag : Nat
  baseId : Option Nat
  cacheId : Nat
  basePos : Nat
  cachePos : Nat
  info : Option CacheEntry
  closed : Bool
deriving Repr, DecidableEq

/-- The full overlay state. -/
structure CState where
  base : Tier
  cache : Tier
  cacheSize : Int
  cacheTime : Int
  currSize : Int
  files : List CacheEntry
  now : Int
  handles : List HState
deriving Repr, DecidableEq

/-- SizeCacheFS.getCacheFile. -/
def getCacheFileM (s : CState) (p : Path) : Option CacheEntry :=
  findEntry s.files p

/-- SizeCacheFS.removeFromCache: drop the entry from the index and
subtract its size from currSize, when present. -/
def removeFromCacheM (s : CState) (p : Path) : CState :=
  match findEntry s.files p with
  | none => s
  | some e => { s with files := eraseKey s.files p, currSize := s.currSize - e.size }

/-- The detach-on-open prefix shared by Open and OpenFile: remove the
entry from the index (subtracting its size) when present. -/
def detachM (s : CState) (name : Path) : CState :=
  if (getCacheFileM s name).isSome then removeFromCacheM s name else s

/-- The empty-ancestor garbage-collection loop of addToCache, with an
explicit fuel argument (each round climbs from a path to its parent, so
the length of the starting path is exactly enough fuel).  The model has
no materialised directories, so u.cache.Open(ancestor) fails with
os.ErrNotExist (walk up) unless a regular file occupies the ancestor
path, in which case Readdir on it fails; for single-component victim
paths the loop body never runs (filepath.Dir gives "."). -/
def gcDirsF : Nat → Tier → Path → Except Err Tier
  | 0, t, _ => .ok t
  | fuel + 1, t, p =>
    if p = [] then .ok t
    else if (flookup t.dir p).isSome then .error .wrapped
    else gcDirsF fuel t (dirOf p)

def gcDirs (t : Tier) (p : Path) : Except Err Tier :=
  gcDirsF p.length t p

theorem popMin_eq_none {l : List CacheEntry} : popMin l = none ↔ l = [] := by
  cases l with
  | nil => simp [popMin]
  | cons e rest =>
    simp only [popMin]
    constructor
    · intro h
      cases hpm : popMin rest with
      | none => simp [hpm] at h
      | some pr =>
        cases pr with
        | mk m r => rw [hpm] at h; by_cases hle : entLeB e m <;> simp [hle] at h
    · intro h; cases h

theorem popMin_perm {l : List CacheEntry} {e : CacheEntry} {rest : List CacheEntry}
    (h : popMin l = some (e, rest)) : l.Perm (e :: rest) := by
  induction l generalizing e rest with
  | nil => simp [popMin] at h
  | cons x xs ih =>
    rw [popMin] at h
    cases hpm : popMin xs with
    | none =>
      rw [hpm] at h
      have hxs : xs = [] := popMin_eq_none.mp hpm
      simp only [Option.some.injEq, Prod.mk.injEq] at h
      obtain ⟨he, hr⟩ := h
      subst he
      subst hr
      subst hxs
      exact List.Perm.refl _
    | some pr =>
      obtain ⟨m, r⟩ := pr
      rw [hpm] at h
      dsimp only at h
      have hperm := ih hpm
      by_cases hle : entLeB x m = true
      · rw [if_pos hle] at h
        simp only [Option.some.injEq, Prod.mk.injEq] at h
        obtain ⟨he, hr⟩ := h
        subst he
        subst hr
        exact List.Perm.refl _
      · rw [if_neg hle] at h
        simp only [Option.some.injEq, Prod.mk.injEq] at h
        obtain ⟨he, hr⟩ := h
        subst he
        subst hr
        exact (List.Perm.cons x hperm).trans (List.Perm.swap m x r)

theorem popMin_length {l : List CacheEntry} {e : CacheEntry} {rest : List CacheEntry}
    (h : popMin l = some (e, rest)) : rest.length + 1 = l.length := by
  have := (popMin_perm h).length_eq
  simp only [List.length_cons] at this
  omega

/-- The eviction loop of SizeCacheFS.addToCache: while currSize > 0 and
admitting the candidate would overflow the capacity, pop the least
recently used entry, remove its cache file (os.ErrNotExist tolerated),
subtract its size, and garbage-collect empty ancestors.  The fuel is one
more than the number of index entries, which is always sufficient: every
round pops one entry, and the round that finds the set empty while
currSize > 0 dereferences the nil node (Go would panic). -/
def evictLoopF : Nat → Tier → List CacheEntry → Int → Int → Int →
    Except Err (Tier × List CacheEntry × Int)
  | 0, _, _, _, _, _ => .error .nilDeref
  | fuel + 1, cache, files, currSize, infoSize, cacheSize =>
    if 0 < currSize ∧ cacheSize < currSize + infoSize then
      match popMin files with
      | none => .error .nilDeref
      | some (victim, rest) =>
        let cache2 := tierRemoveD cache victim.path
        match gcDirs cache2 (dirOf victim.path) with
        | .error e => .error e
        | .ok cache3 => evictLoopF fuel cache3 rest (currSize - victim.size) infoSize cacheSize
    else
      .ok (cache, files, currSize)

def evictLoop (cache : Tier) (files : List CacheEntry) (currSize infoSize cacheSize : Int) :
    Except Err (Tier × List CacheEntry × Int) :=
  evictLoopF (files.length + 1) cache files currSize infoSize cacheSize

/-- SizeCacheFS.addToCache: subtract the size of an existing entry at the
same path (the entry itself stays in the set), run the eviction loop,
then insert the candidate and add its size. -/
def addToCacheM (s : CState) (info : CacheEntry) : Except Err CState :=
  let currSize1 :=
    match findEntry s.files info.path with
    | some old => s.currSize - old.size
    | none => s.currSize
  match evictLoop s.cache s.files currSize1 info.size s.cacheSize with
  | .error e => .error e
  | .ok (cache2, files2, currSize2) =>
    .ok { s with
          cache := cache2,
          files := addOrUpdate files2 info,
          currSize := currSize2 + info.size }

/-- SizeCacheFS.cacheStatus (the size-cache variant with TTL support). -/
def cacheStatusM (s : CState) (name : Path) : CacheState × Option Inode :=
  match tierStat s.cache name with
  | some lfi =>
    if s.cacheTime = 0 then (.cacheHit, some lfi)
    else if lfi.mtime + s.cacheTime < s.now then
      match tierStat s.base name with
      | none => (.cacheLocal, some lfi)
      | some bfi =>
        if lfi.mtime < bfi.mtime then (.cacheStale, some bfi)
        else (.cacheHit, some lfi)
    else (.cacheHit, some lfi)
  | none => (.cacheMiss, none)

/-- Outcome oracle for the io.Copy stream inside copyToCache: the copy
either succeeds, fails partway with an error, or reports a byte count
n together with the bytes actually written. -/
inductive CopyRes where
  | success
  | copyFailed (part : Bytes)
  | shortCount (part : Bytes) (n : Nat)
deriving Repr, DecidableEq

/-- SizeCacheFS.copyToCache: open the base file, ensure the parent
directory exists (inert here: directories are not materialised), create
the cache file, stream-copy, compare the copied count with the base stat
size (mismatch: remove the partial file and report syscall.EIO; copy
error: remove the partial file and report the wrapped error), set the
cache file's mtime to the base mtime, and return the candidate entry. -/
def copyToCacheM (s : CState) (name : Path) (res : CopyRes) :
    CState × Except Err (Option CacheEntry) :=
  match tierStat s.base name with
  | none => (s, .error .wrapped)
  | some bIno =>
    let created := tierCreate s.cache name s.now
    let cache1 := created.1
    match res with
    | .copyFailed part =>
      let cache2 := tierSetInode cache1 name { data := part, mtime := s.now }
      ({ s with cache := tierRemoveD cache2 name }, .error .wrapped)
    | .shortCount part n =>
      let cache2 := tierSetInode cache1 name { data := part, mtime := s.now }
      if bIno.data.length = n then
        ({ s with cache := tierChtimes cache2 name bIno.mtime },
         .ok (some { path := name, size := Int.ofNat bIno.data.length
                   , lastAccessTime := s.now }))
      else
        ({ s with cache := tierRemoveD cache2 name }, .error .eio)
    | .success =>
      let cache2 := tierSetInode cache1 name { data := bIno.data, mtime := s.now }
      ({ s with cache := tierChtimes cache2 name bIno.mtime },
       .ok (some { path := name, size := Int.ofNat bIno.data.length
                 , lastAccessTime := s.now }))

/-- Whether any write-capable bit is present (the test OpenFile applies
before forcing the cache handle to read-write). -/
def hasWriteBits (flag : Nat) : Bool :=
  flag &&& (O_WRONLY ||| O_RDWR ||| O_APPEND ||| O_CREATE ||| O_TRUNC) ≠ 0

/-- The flag used for the cache-tier handle: (flag &^ O_WRONLY) | O_RDWR
whenever a write-capable bit is present. -/
def cacheFlagOf (flag : Nat) : Nat :=
  if hasWriteBits flag then (flag - (flag &&& O_WRONLY)) ||| O_RDWR else flag

/-- Backend OpenFile on one tier: honours O_TRUNC, O_APPEND (handle starts
at end of file) and O_CREATE; opening a missing path without O_CREATE is
os.ErrNotExist. -/
def tierOpenFile (t : Tier) (p : Path) (flag : Nat) (now : Int) :
    Except Err (Tier × Nat × Nat) :=
  match flookup t.dir p with
  | some i =>
    match slookup t.store i with
    | none => .error .notExist
    | some ino =>
      if flag &&& O_TRUNC ≠ 0 then
        let ino2 : Inode := { data := [], mtime := now }
        .ok ({ t with store := sset t.store i ino2 }, i, 0)
      else
        .ok (t, i, if flag &&& O_APPEND ≠ 0 then ino.data.length else 0)
  | none =>
    if flag &&& O_CREATE ≠ 0 then
      let c := tierCreate t p now
      .ok (c.1, c.2, 0)
    else .error .notExist

end Kafero

namespace Kafero

/-! ## SizeCacheFile handle operations (src/unnamed/part_004) -/

/-- Overwrite bytes at a position, zero-padding when the position is past
the end (standard WriteAt semantics). -/
def writeBytesAt (data : Bytes) (pos : Nat) (b : Bytes) : Bytes :=
  data.take pos ++ List.replicate (pos - data.length) 0 ++ b ++ data.drop (pos + b.length)

/-- SizeCacheFile.Sync: a no-op for flag == os.O_RDONLY; otherwise
truncate the base file to zero, seek it to the start, remember the cache
offset, rewind the cache file, copy cache to base, restore the cache
offset, and sync base.  The net effect on the state is that the base
inode holds the cache file's bytes; the handle's cache offset is
unchanged. -/
def syncH (s : CState) (h : HState) : Except Err (CState × HState) :=
  if h.flag = 0 then .ok (s, h)
  else
    match h.baseId with
    | none => .error .nilDeref
    | some bid =>
      match slookup s.base.store bid with
      | none => .error .wrapped
      | some _ =>
        match slookup s.cache.store h.cacheId with
        | none => .error .wrapped
        | some cIno =>
          let bIno2 : Inode := { data := cIno.data, mtime := s.now }
          .ok ({ s with base := { s.base with store := sset s.base.store bid bIno2 } },
               { h with basePos := cIno.data.length })

/-- SizeCacheFile.Write: delegates to the cache-tier file.  The cache
handle was opened with cacheFlagOf(flag); the backend refuses writes on a
read-only handle with EPERM. -/
def writeStep (s0 : CState) (i : Nat) (b : Bytes) : Except Err CState :=
  let s := { s0 with now := s0.now + 1 }
  match s.handles[i]? with
  | none => .error .nilDeref
  | some h =>
    if h.closed then .error .alreadyClosed
    else if (cacheFlagOf h.flag) &&& (O_WRONLY ||| O_RDWR) = 0 then .error .eperm
    else
      match slookup s.cache.store h.cacheId with
      | none => .error .wrapped
      | some ino =>
        let ino2 : Inode := { data := writeBytesAt ino.data h.cachePos b, mtime := s.now }
        .ok { s with
              cache := { s.cache with store := sset s.cache.store h.cacheId ino2 },
              handles := s.handles.set i { h with cachePos := h.cachePos + b.length } }

/-- SizeCacheFile.Close: sync, stat the base file, close both underlying
files, set the cache file's times to the base mtime (error discarded),
and, when the handle carries an entry, re-admit it with the final base
size and a fresh last-access time. -/
def closeStep (s0 : CState) (i : Nat) : Except Err CState :=
  let s := { s0 with now := s0.now + 1 }
  match s.handles[i]? with
  | none => .error .nilDeref
  | some h =>
    if h.closed then .error .alreadyClosed
    else
      match syncH s h with
      | .error _ => .error .wrapped
      | .ok (s1, h1) =>
        match h1.baseId with
        | none => .error .nilDeref
        | some bid =>
          match slookup s1.base.store bid with
          | none => .error .wrapped
          | some bIno =>
            let s2 := { s1 with handles := s1.handles.set i { h1 with closed := true } }
            let s3 := { s2 with cache := tierChtimes s2.cache h.path bIno.mtime }
            match h.info with
            | none => .ok s3
            | some e =>
              addToCacheM s3
                { e with size := Int.ofNat bIno.data.length, lastAccessTime := s.now }

/-! ## SizeCacheFS filesystem operations (src/unnamed/part_009) -/

/-- SizeCacheFS.Create: create the file on both tiers, build a size-0
entry, make sure the path is out of the index, and hand out a pinned
read-write handle. -/
def createStep (s0 : CState) (name : Path) : Except Err CState :=
  let s := { s0 with now := s0.now + 1 }
  let b := tierCreate s.base name s.now
  let c := tierCreate s.cache name s.now
  let info : CacheEntry := { path := name, size := 0, lastAccessTime := s.now }
  let s1 := removeFromCacheM { s with base := b.1, cache := c.1 } name
  .ok { s1 with handles := s1.handles ++
        [{ path := name, flag := O_RDWR ||| O_CREATE ||| O_TRUNC, baseId := some b.2
         , cacheId := c.2, basePos := 0, cachePos := 0, info := some info
         , closed := false }] }

/-- The tail of SizeCacheFS.Open shared by all non-directory branches:
open the base file (error ignored), open the cache file (an error is
fatal only if the base open also failed; otherwise the following
cache.Stat fails and aborts anyway), and hand out the read-only handle
carrying the detached entry. -/
def openROBottom (s : CState) (name : Path) (info : Option CacheEntry) :
    Except Err CState :=
  let bfile := flookup s.base.dir name
  match flookup s.cache.dir name with
  | none => .error .notExist
  | some cid =>
    match slookup s.cache.store cid with
    | none => .error .wrapped
    | some _ =>
      .ok { s with handles := s.handles ++
            [{ path := name, flag := 0, baseId := bfile, cacheId := cid
             , basePos := 0, cachePos := 0, info := info, closed := false }] }

/-- SizeCacheFS.Open: detach the entry first (protecting it from
eviction), classify the cache status, copy-on-read on a miss against an
existing base file or on staleness, then open both tier files
read-only. -/
def openROStep (s0 : CState) (name : Path) : Except Err CState :=
  let s := { s0 with now := s0.now + 1 }
  let info0 := getCacheFileM s name
  let s1 := detachM s name
  match (cacheStatusM s1 name).1 with
  | .cacheLocal => openROBottom s1 name info0
  | .cacheHit => openROBottom s1 name info0
  | .cacheMiss =>
    match tierStat s1.base name with
    | none => .error .notExist
    | some _ =>
      let r := copyToCacheM s1 name .success
      match r.2 with
      | .error e => .error e
      | .ok infoN => openROBottom r.1 name infoN
  | .cacheStale =>
    let r := copyToCacheM s1 name .success
    match r.2 with
    | .error e => .error e
    | .ok infoN => openROBottom r.1 name infoN

/-- SizeCacheFS.OpenFile: detach the entry, classify, copy-on-read (or
build a fresh size-0 entry when the base lacks the file), then open the
base file with the caller's flags and the cache file with the forced
read-write flags. -/
def openFStep (s0 : CState) (name : Path) (flag : Nat) : Except Err CState :=
  let s := { s0 with now := s0.now + 1 }
  let info0 := getCacheFileM s name
  let s1 := detachM s name
  let afterCopy : Except Err (CState × Option CacheEntry) :=
    match (cacheStatusM s1 name).1 with
    | .cacheLocal => .ok (s1, info0)
    | .cacheHit => .ok (s1, info0)
    | _ =>
      if tierExists s1.base name then
        let r := copyToCacheM s1 name .success
        match r.2 with
        | .error e => .error e
        | .ok infoN => .ok (r.1, infoN)
      else
        .ok (s1, some { path := name, size := 0, lastAccessTime := s1.now })
  match afterCopy with
  | .error e => .error e
  | .ok (s2, info1) =>
    match tierOpenFile s2.base name flag s2.now with
    | .error e => .error e
    | .ok (bt, bid, bpos) =>
      match tierOpenFile s2.cache name (cacheFlagOf flag) s2.now with
      | .error e => .error e
      | .ok (ct, cid, cpos) =>
        .ok { s2 with
              base := bt, cache := ct,
              handles := s2.handles ++
                [{ path := name, flag := flag, baseId := some bid, cacheId := cid
                 , basePos := bpos, cachePos := cpos, info := info1
                 , closed := false }] }

/-- SizeCacheFS.Remove: if the cache tier has the path, remove it there
and drop the index entry, then remove from base (whose error is
reported). -/
def removeStep (s0 : CState) (name : Path) : Except Err CState :=
  let s := { s0 with now := s0.now + 1 }
  if tierExists s.cache name then
    match tierRemove s.cache name with
    | none => .error .wrapped
    | some ct =>
      let s1 := removeFromCacheM { s with cache := ct } name
      match tierRemove s1.base name with
      | none => .error .notExist
      | some bt => .ok { s1 with base := bt }
  else
    match tierRemove s.base name with
    | none => .error .notExist
    | some bt => .ok { s with base := bt }

/-- Backend Rename on a tier. -/
def tierRename (t : Tier) (oldp newp : Path) : Except Err Tier :=
  match flookup t.dir oldp with
  | none => .error .notExist
  | some i => .ok { t with dir := fset (ferase t.dir oldp) newp i }

/-- SizeCacheFS.Rename: when the cache tier has the old path, look up the
entry (a detached entry makes getCacheFile return nil and the subsequent
field assignment dereference nil), re-admit it under the new name, rename
in the cache tier, then rename in base. -/
def renameStep (s0 : CState) (oldname newname : Path) : Except Err CState :=
  let s := { s0 with now := s0.now + 1 }
  if tierExists s.cache oldname then
    match getCacheFileM s oldname with
    | none => .error .nilDeref
    | some info =>
      let s1 := removeFromCacheM s oldname
      match addToCacheM s1 { info with path := newname } with
      | .error e => .error e
      | .ok s2 =>
        match tierRename s2.cache oldname newname with
        | .error e => .error e
        | .ok ct =>
          match tierRename s2.base oldname newname with
          | .error e => .error e
          | .ok bt => .ok { s2 with cache := ct, base := bt }
  else
    match tierRename s.base oldname newname with
    | .error e => .error e
    | .ok bt => .ok { s with base := bt }

/-! ## Traces of overlay operations -/

inductive Op where
  | create (p : Path)
  | openRO (p : Path)
  | openF (p : Path) (flag : Nat)
  | write (i : Nat) (b : Bytes)
  | close (i : Nat)
  | remove (p : Path)
  | rename (oldp newp : Path)
deriving Repr, DecidableEq

def step (s : CState) : Op → Except Err CState
  | .create p => createStep s p
  | .openRO p => openROStep s p
  | .openF p flag => openFStep s p flag
  | .write i b => writeStep s i b
  | .close i => closeStep s i
  | .remove p => removeStep s p
  | .rename a b => renameStep s a b

def runTrace (s : CState) : List Op → Except Err CState
  | [] => .ok s
  | op :: rest =>
    match step s op with
    | .error e => .error e
    | .ok s2 => runTrace s2 rest

/-- The overlay as built by NewSizeCacheFS over two empty tiers (no
.cacheindex: the walk finds nothing). -/
def initState (cacheSize cacheTime : Int) : CState :=
  { base := emptyTier, cache := emptyTier
  , cacheSize := if cacheSize < 0 then 0 else cacheSize
  , cacheTime := cacheTime, currSize := 0, files := [], now := 0, handles := [] }

/-- Paths with a currently open handle. -/
def openPathsOf (s : CState) : List Path :=
  (s.handles.filter (fun h => !h.closed)).map (fun h => h.path)

/-- Trace discipline for the quantified invariant: no two simultaneously
open handles on one path, and no rename (renaming a path whose entry is
detached dereferences nil, and renaming onto an indexed path re-admits a
still-indexed entry). -/
def allowedB (s : CState) : Op → Bool
  | .create p => !((openPathsOf s).contains p)
  | .openRO p => !((openPathsOf s).contains p)
  | .openF p _ => !((openPathsOf s).contains p)
  | .write _ _ => true
  | .close _ => true
  | .remove _ => true
  | .rename _ _ => false

def allowedTraceB (s : CState) : List Op → Bool
  | [] => true
  | op :: rest =>
    allowedB s op &&
      (match step s op with
       | .ok s2 => allowedTraceB s2 rest
       | .error _ => true)

end Kafero

namespace Kafero

/-! ## Index persistence (.cacheindex) and construction (NewSizeCacheFS)

json.Marshal of the entry list is modelled by a self-describing
executable codec on byte lists; json.Unmarshal by its partial inverse,
which rejects malformed input (the unmarshalling-error branch of the
constructor). -/

/-- The reserved path of the index file in the cache tier. -/
def cacheIndexPath : Path := [0]

def encodeInt : Int → List Nat
  | .ofNat n => [0, n]
  | .negSucc n => [1, n]

def decodeInt : List Nat → Option (Int × List Nat)
  | 0 :: n :: rest => some (.ofNat n, rest)
  | 1 :: n :: rest => some (.negSucc n, rest)
  | _ => none

def encodeEntry (e : CacheEntry) : List Nat :=
  e.path.length :: (e.path ++ encodeInt e.size ++ encodeInt e.lastAccessTime)

def decodeEntry (bs : List Nat) : Option (CacheEntry × List Nat) :=
  match bs with
  | [] => none
  | n :: rest =>
    if rest.length < n then none
    else
      match decodeInt (rest.drop n) with
      | none => none
      | some (sz, r2) =>
        match decodeInt r2 with
        | none => none
        | some (t, r3) =>
          some ({ path := rest.take n, size := sz, lastAccessTime := t }, r3)

def decodeEntries : Nat → List Nat → Option (List CacheEntry × List Nat)
  | 0, bs => some ([], bs)
  | n + 1, bs =>
    match decodeEntry bs with
    | none => none
    | some (e, rest) =>
      match decodeEntries n rest with
      | none => none
      | some (l, r2) => some (e :: l, r2)

def encodeIndex (l : List CacheEntry) : List Nat :=
  l.length :: (l.map encodeEntry).flatten

def decodeIndex (bs : List Nat) : Option (List CacheEntry) :=
  match bs with
  | [] => none
  | n :: rest =>
    match decodeEntries n rest with
    | none => none
    | some (l, r) => if r = [] then some l else none

/-- GetByScoreRange(MinInt64, MaxInt64): all entries in ascending
(score, path) order. -/
def sortByScore (l : List CacheEntry) : List CacheEntry :=
  List.insertionSort (fun a b => entLeB a b = true) l

/-- SizeCacheFS.Close: serialize every entry of the index to the
.cacheindex file in the cache tier. -/
def fsCloseM (s : CState) : CState :=
  let data := encodeIndex (sortByScore s.files)
  let c := tierCreate s.cache cacheIndexPath s.now
  { s with cache := tierSetInode c.1 cacheIndexPath { data := data, mtime := s.now } }

/-- The walk over the cache tier used when no index file exists: one
entry per regular file, with the file's size and its mtime as the
last-access timestamp. -/
def walkEntries (t : Tier) : List CacheEntry :=
  t.dir.filterMap fun pr =>
    (slookup t.store pr.2).map fun ino =>
      { path := pr.1, size := Int.ofNat ino.data.length, lastAccessTime := ino.mtime }

/-- Rebuilding the sorted set: AddOrUpdate entry by entry. -/
def buildIndexSet (files : List CacheEntry) : List CacheEntry :=
  files.foldl addOrUpdate []

def mkFsState (base cache : Tier) (cs ct : Int) (files : List CacheEntry) : CState :=
  { base := base, cache := cache, cacheSize := cs, cacheTime := ct
  , currSize := sumSizes files, files := buildIndexSet files, now := 0, handles := [] }

/-- NewSizeCacheFS: clamp a negative capacity to 0; load and deserialize
.cacheindex when it exists (a deserialization failure is a construction
error), otherwise walk the cache tier; then rebuild the sorted set and
sum the sizes. -/
def newSizeCacheFSM (base cache : Tier) (cacheSize cacheTime : Int) : Except Err CState :=
  let cs := if cacheSize < 0 then 0 else cacheSize
  if tierExists cache cacheIndexPath then
    match tierStat cache cacheIndexPath with
    | none => .error .wrapped
    | some ino =>
      match decodeIndex ino.data with
      | none => .error .unmarshal
      | some files => .ok (mkFsState base cache cs cacheTime files)
  else
    .ok (mkFsState base cache cs cacheTime (walkEntries cache))

/-! ## The close sequence of SizeCacheFile.Close as a control-flow model

For the error-discipline claim the close sequence is modelled over an
oracle saying which of its steps fail, recording which of the two
underlying Close calls were reached. -/

inductive CloseErr where
  | syncErr
  | statErr
  | baseCloseErr
  | cacheCloseErr
deriving Repr, DecidableEq

structure CloseOutcome where
  syncFails : Bool
  statFails : Bool
  baseCloseFails : Bool
  cacheCloseFails : Bool
deriving Repr, DecidableEq

structure CloseReport where
  baseCloseAttempted : Bool
  cacheCloseAttempted : Bool
  result : Option CloseErr
deriving Repr, DecidableEq

/-- SizeCacheFile.Close, control flow only: every failing step returns
immediately, skipping the remaining close calls. -/
def closeSeq (o : CloseOutcome) : CloseReport :=
  if o.syncFails then
    { baseCloseAttempted := false, cacheCloseAttempted := false, result := some .syncErr }
  else if o.statFails then
    { baseCloseAttempted := false, cacheCloseAttempted := false, result := some .statErr }
  else if o.baseCloseFails then
    { baseCloseAttempted := true, cacheCloseAttempted := false, result := some .baseCloseErr }
  else if o.cacheCloseFails then
    { baseCloseAttempted := true, cacheCloseAttempted := true, result := some .cacheCloseErr }
  else
    { baseCloseAttempted := true, cacheCloseAttempted := true, result := none }

end Kafero

namespace Kafero

/-! ## Lemmas about the index structure -/

theorem mem_pathsOf {l : List CacheEntry} {p : Path} :
    p ∈ pathsOf l ↔ ∃ e ∈ l, e.path = p := by
  simp [pathsOf]

theorem findEntry_eq_none {l : List CacheEntry} {p : Path} :
    findEntry l p = none ↔ p ∉ pathsOf l := by
  induction l with
  | nil => simp [findEntry, pathsOf]
  | cons e rest ih =>
    by_cases he : e.path = p
    · simp [findEntry, he, pathsOf]
    · simp [findEntry, he, pathsOf] at ih ⊢
      exact ⟨fun h => ⟨fun hh => he hh.symm, (ih.mp h)⟩, fun h => ih.mpr h.2⟩

theorem findEntry_some {l : List CacheEntry} {p : Path} {e : CacheEntry}
    (h : findEntry l p = some e) : e ∈ l ∧ e.path = p := by
  induction l with
  | nil => simp [findEntry] at h
  | cons x rest ih =>
    rw [findEntry] at h
    by_cases hx : x.path = p
    · rw [if_pos hx] at h
      obtain rfl := Option.some.inj h
      exact ⟨List.mem_cons_self _ _, hx⟩
    · rw [if_neg hx] at h
      obtain ⟨hm, hp⟩ := ih h
      exact ⟨List.mem_cons_of_mem _ hm, hp⟩

theorem findEntry_isSome {l : List CacheEntry} {p : Path} :
    (findEntry l p).isSome = true ↔ p ∈ pathsOf l := by
  cases hf : findEntry l p with
  | none => simpa using (findEntry_eq_none.mp hf)
  | some e =>
    simp only [Option.isSome_some, true_iff]
    obtain ⟨hm, hp⟩ := findEntry_some hf
    exact mem_pathsOf.mpr ⟨e, hm, hp⟩

theorem eraseKey_of_not_mem {l : List CacheEntry} {p : Path}
    (h : p ∉ pathsOf l) : eraseKey l p = l := by
  induction l with
  | nil => rfl
  | cons e rest ih =>
    simp only [pathsOf, List.map_cons, List.mem_cons, not_or] at h
    rw [eraseKey, if_neg (fun hh => h.1 hh.symm), ih h.2]

theorem mem_eraseKey {l : List CacheEntry} {p : Path} {e : CacheEntry}
    (h : e ∈ eraseKey l p) : e ∈ l := by
  induction l with
  | nil => simpa [eraseKey] using h
  | cons x rest ih =>
    rw [eraseKey] at h
    by_cases hx : x.path = p
    · rw [if_pos hx] at h
      exact List.mem_cons_of_mem _ h
    · rw [if_neg hx] at h
      rcases List.mem_cons.mp h with h1 | h2
      · exact h1 ▸ List.mem_cons_self _ _
      · exact List.mem_cons_of_mem _ (ih h2)

theorem pathsOf_eraseKey_subset {l : List CacheEntry} {p q : Path}
    (h : q ∈ pathsOf (eraseKey l p)) : q ∈ pathsOf l := by
  obtain ⟨e, hm, hp⟩ := mem_pathsOf.mp h
  exact mem_pathsOf.mpr ⟨e, mem_eraseKey hm, hp⟩

theorem eraseKey_sum {l : List CacheEntry} {p : Path} {e : CacheEntry}
    (hf : findEntry l p = some e) :
    sumSizes (eraseKey l p) = sumSizes l - e.size := by
  induction l with
  | nil => simp [findEntry] at hf
  | cons x rest ih =>
    rw [findEntry] at hf
    by_cases hx : x.path = p
    · rw [if_pos hx] at hf
      obtain rfl := Option.some.inj hf
      rw [eraseKey, if_pos hx]
      simp [sumSizes]
    · rw [if_neg hx] at hf
      rw [eraseKey, if_neg hx]
      simp only [sumSizes, List.map_cons, List.sum_cons] at ih ⊢
      rw [ih hf]
      ring

theorem not_mem_pathsOf_eraseKey {l : List CacheEntry} {p : Path}
    (hnd : (pathsOf l).Nodup) : p ∉ pathsOf (eraseKey l p) := by
  induction l with
  | nil => simp [eraseKey, pathsOf]
  | cons x rest ih =>
    simp only [pathsOf, List.map_cons, List.nodup_cons] at hnd
    by_cases hx : x.path = p
    · rw [eraseKey, if_pos hx]
      rw [← hx]
      exact hnd.1
    · rw [eraseKey, if_neg hx]
      simp only [pathsOf, List.map_cons, List.mem_cons, not_or]
      exact ⟨fun hh => hx hh.symm, ih hnd.2⟩

theorem nodup_pathsOf_eraseKey {l : List CacheEntry} {p : Path}
    (hnd : (pathsOf l).Nodup) : (pathsOf (eraseKey l p)).Nodup := by
  induction l with
  | nil => simp [eraseKey, pathsOf]
  | cons x rest ih =>
    simp only [pathsOf, List.map_cons, List.nodup_cons] at hnd
    by_cases hx : x.path = p
    · rw [eraseKey, if_pos hx]
      exact hnd.2
    · rw [eraseKey, if_neg hx]
      simp only [pathsOf, List.map_cons, List.nodup_cons]
      refine ⟨fun hh => hnd.1 (pathsOf_eraseKey_subset hh), ih hnd.2⟩

theorem addOrUpdate_of_not_mem {l : List CacheEntry} {e : CacheEntry}
    (h : e.path ∉ pathsOf l) : addOrUpdate l e = l ++ [e] := by
  induction l with
  | nil => rfl
  | cons x rest ih =>
    simp only [pathsOf, List.map_cons, List.mem_cons, not_or] at h
    rw [addOrUpdate, if_neg (fun hh => h.1 hh.symm), ih h.2]
    rfl

theorem popMin_sum {l : List CacheEntry} {e : CacheEntry} {rest : List CacheEntry}
    (h : popMin l = some (e, rest)) : sumSizes rest = sumSizes l - e.size := by
  have hp := (popMin_perm h).map (fun x => x.size)
  have hs := hp.sum_eq
  simp only [List.map_cons, List.sum_cons] at hs
  simp only [sumSizes]
  rw [hs]
  ring

theorem popMin_mem {l : List CacheEntry} {e : CacheEntry} {rest : List CacheEntry}
    (h : popMin l = some (e, rest)) : e ∈ l :=
  (popMin_perm h).symm.subset (List.mem_cons_self _ _)

theorem popMin_rest_subset {l : List CacheEntry} {e x : CacheEntry} {rest : List CacheEntry}
    (h : popMin l = some (e, rest)) (hx : x ∈ rest) : x ∈ l :=
  (popMin_perm h).symm.subset (List.mem_cons_of_mem _ hx)

theorem popMin_nodup {l : List CacheEntry} {e : CacheEntry} {rest : List CacheEntry}
    (h : popMin l = some (e, rest)) (hnd : (pathsOf l).Nodup) :
    (pathsOf rest).Nodup ∧ e.path ∉ pathsOf rest := by
  have hp := (popMin_perm h).map (fun x => x.path)
  have := (List.Perm.nodup_iff hp).mp hnd
  simp only [List.map_cons, List.nodup_cons] at this
  exact ⟨this.2, this.1⟩

theorem sumSizes_nonneg {l : List CacheEntry} (h : ∀ e ∈ l, 0 ≤ e.size) :
    0 ≤ sumSizes l := by
  apply List.sum_nonneg
  intro x hx
  obtain ⟨e, he, rfl⟩ := List.mem_map.mp hx
  exact h e he

theorem sumSizes_append (l1 l2 : List CacheEntry) :
    sumSizes (l1 ++ l2) = sumSizes l1 + sumSizes l2 := by
  simp [sumSizes]

end Kafero

namespace Kafero

theorem findEntry_append_last {l : List CacheEntry} {e : CacheEntry}
    (h : e.path ∉ pathsOf l) : findEntry (l ++ [e]) e.path = some e := by
  induction l with
  | nil => simp [findEntry]
  | cons x rest ih =>
    simp only [pathsOf, List.map_cons, List.mem_cons, not_or] at h
    rw [List.cons_append, findEntry, if_neg (fun hh => h.1 hh.symm)]
    exact ih h.2

theorem evictLoopF_spec :
    ∀ (fuel : Nat) (cache : Tier) (files : List CacheEntry) (currSize infoSize cacheSize : Int)
      (out : Tier × List CacheEntry × Int),
      files.length < fuel →
      evictLoopF fuel cache files currSize infoSize cacheSize = .ok out →
      currSize = sumSizes files →
      (∀ e ∈ files, 0 ≤ e.size) →
      (pathsOf files).Nodup →
      out.2.2 = sumSizes out.2.1 ∧ (∀ e ∈ out.2.1, e ∈ files) ∧
        (pathsOf out.2.1).Nodup ∧
        ¬(0 < out.2.2 ∧ cacheSize < out.2.2 + infoSize) := by
  intro fuel
  induction fuel with
  | zero =>
    intro cache files currSize infoSize cacheSize out hlen hrun hsum hnn hnd
    exact absurd hlen (by omega)
  | succ n ih =>
    intro cache files currSize infoSize cacheSize out hlen hrun hsum hnn hnd
    rw [evictLoopF] at hrun
    split at hrun
    · rename_i hcond
      split at hrun
      · exact absurd hrun (by simp)
      · rename_i victim rest hpm
        dsimp only at hrun
        split at hrun
        · exact absurd hrun (by simp)
        · rename_i cache3 hgc
          have hlen2 : rest.length < n := by
            have := popMin_length hpm
            omega
          have hsum2 : currSize - victim.size = sumSizes rest := by
            rw [popMin_sum hpm, hsum]
          have hnn2 : ∀ e ∈ rest, 0 ≤ e.size :=
            fun e he => hnn e (popMin_rest_subset hpm he)
          have hnd2 := (popMin_nodup hpm hnd).1
          obtain ⟨c1, c2, c3, c4⟩ :=
            ih cache3 rest (currSize - victim.size) infoSize cacheSize out
              hlen2 hrun hsum2 hnn2 hnd2
          exact ⟨c1, fun e he => popMin_rest_subset hpm (c2 e he), c3, c4⟩
    · rename_i hcond
      obtain rfl : (cache, files, currSize) = out := by
        simpa using hrun
      exact ⟨hsum, fun e he => he, hnd, hcond⟩

theorem evictLoop_spec_aux :
    ∀ (n : Nat) (cache : Tier) (files : List CacheEntry) (currSize infoSize cacheSize : Int)
      (out : Tier × List CacheEntry × Int),
      files.length ≤ n →
      evictLoop cache files currSize infoSize cacheSize = .ok out →
      currSize = sumSizes files →
      (∀ e ∈ files, 0 ≤ e.size) →
      (pathsOf files).Nodup →
      out.2.2 = sumSizes out.2.1 ∧ (∀ e ∈ out.2.1, e ∈ files) ∧
        (pathsOf out.2.1).Nodup ∧
        ¬(0 < out.2.2 ∧ cacheSize < out.2.2 + infoSize) := by
  intro n cache files currSize infoSize cacheSize out hlen hrun hsum hnn hnd
  exact evictLoopF_spec (files.length + 1) cache files currSize infoSize cacheSize out
    (by omega) hrun hsum hnn hnd

end Kafero

namespace Kafero

/-- Specification of addToCache when the admitted path is not currently
indexed (the detached-entry discipline guarantees this at every close):
the accounting identity is maintained, the entry lands in the index with
exactly its size and timestamp, and the resulting total is bounded by
max(capacity, admitted size). -/
theorem addToCacheM_spec {s : CState} {info : CacheEntry} {s2 : CState}
    (hrun : addToCacheM s info = .ok s2)
    (hsum : s.currSize = sumSizes s.files)
    (hnn : ∀ e ∈ s.files, 0 ≤ e.size)
    (hnd : (pathsOf s.files).Nodup)
    (hfresh : info.path ∉ pathsOf s.files)
    (hinn : 0 ≤ info.size) :
    s2.currSize = sumSizes s2.files ∧
    (pathsOf s2.files).Nodup ∧
    (∀ e ∈ s2.files, 0 ≤ e.size) ∧
    (∀ e ∈ s2.files, e = info ∨ e ∈ s.files) ∧
    findEntry s2.files info.path = some info ∧
    s2.currSize ≤ max s.cacheSize info.size ∧
    s2.base = s.base ∧ s2.handles = s.handles ∧ s2.now = s.now ∧
    s2.cacheSize = s.cacheSize ∧ s2.cacheTime = s.cacheTime := by
  have hfind : findEntry s.files info.path = none := findEntry_eq_none.mpr hfresh
  unfold addToCacheM at hrun
  rw [hfind] at hrun
  dsimp only at hrun
  split at hrun
  · exact absurd hrun (by simp)
  · rename_i cache2 files2 currSize2 heq
    obtain ⟨c1, c2, c3, c4⟩ :=
      evictLoop_spec_aux s.files.length s.cache s.files s.currSize info.size s.cacheSize
        (cache2, files2, currSize2) le_rfl heq hsum hnn hnd
    dsimp only at c1 c2 c3 c4
    have hnn2 : ∀ e ∈ files2, 0 ≤ e.size := fun e he => hnn e (c2 e he)
    have hge : 0 ≤ currSize2 := c1 ▸ sumSizes_nonneg hnn2
    have hsub : info.path ∉ pathsOf files2 := by
      intro hmem
      obtain ⟨e, he, hp⟩ := mem_pathsOf.mp hmem
      exact hfresh (mem_pathsOf.mpr ⟨e, c2 e he, hp⟩)
    have haou : addOrUpdate files2 info = files2 ++ [info] := addOrUpdate_of_not_mem hsub
    obtain rfl : _ = s2 := Except.ok.inj hrun
    refine ⟨?_, ?_, ?_, ?_, ?_, ?_, rfl, rfl, rfl, rfl, rfl⟩
    · simp only [haou, sumSizes_append, c1]
      simp [sumSizes]
    · simp only [haou, pathsOf, List.map_append, List.map_cons, List.map_nil]
      rw [List.nodup_append]
      refine ⟨c3, List.nodup_singleton _, ?_⟩
      intro q hq hq2
      simp only [List.mem_singleton] at hq2
      subst hq2
      exact hsub hq
    · intro e he
      simp only [haou, List.mem_append, List.mem_singleton] at he
      rcases he with he | he
      · exact hnn2 e he
      · subst he; exact hinn
    · intro e he
      simp only [haou, List.mem_append, List.mem_singleton] at he
      rcases he with he | he
      · exact Or.inr (c2 e he)
      · exact Or.inl he
    · simp only [haou]
      exact findEntry_append_last hsub
    · simp only
      rcases not_and_or.mp c4 with h | h
      · have hz : currSize2 = 0 := le_antisymm (not_lt.mp h) hge
        rw [hz, zero_add]
        exact le_max_right _ _
      · exact le_trans (not_lt.mp h) (le_max_left _ _)

end Kafero

namespace Kafero

/-! ## Frame and specification lemmas for the step functions -/

theorem copyToCacheM_state (s : CState) (name : Path) (res : CopyRes) :
    (copyToCacheM s name res).1 = { s with cache := (copyToCacheM s name res).1.cache } := by
  unfold copyToCacheM
  split
  · rfl
  · cases res
    · rfl
    · rfl
    · dsimp only
      split
      · rfl
      · rfl

theorem removeFromCacheM_spec (s : CState) (p : Path)
    (hsum : s.currSize = sumSizes s.files)
    (hnd : (pathsOf s.files).Nodup) :
    (removeFromCacheM s p).currSize = sumSizes (removeFromCacheM s p).files ∧
    (∀ e ∈ (removeFromCacheM s p).files, e ∈ s.files) ∧
    (pathsOf (removeFromCacheM s p).files).Nodup ∧
    p ∉ pathsOf (removeFromCacheM s p).files ∧
    (removeFromCacheM s p).base = s.base ∧
    (removeFromCacheM s p).cache = s.cache ∧
    (removeFromCacheM s p).handles = s.handles ∧
    (removeFromCacheM s p).now = s.now ∧
    (removeFromCacheM s p).cacheSize = s.cacheSize ∧
    (removeFromCacheM s p).cacheTime = s.cacheTime := by
  unfold removeFromCacheM
  cases hf : findEntry s.files p with
  | none =>
    refine ⟨hsum, fun e he => he, hnd, findEntry_eq_none.mp hf, rfl, rfl, rfl, rfl, rfl, rfl⟩
  | some e =>
    refine ⟨?_, ?_, ?_, ?_, rfl, rfl, rfl, rfl, rfl, rfl⟩
    · simp only
      rw [eraseKey_sum hf, hsum]
    · exact fun x hx => mem_eraseKey hx
    · exact nodup_pathsOf_eraseKey hnd
    · exact not_mem_pathsOf_eraseKey hnd

theorem detachM_spec (s : CState) (p : Path)
    (hsum : s.currSize = sumSizes s.files)
    (hnd : (pathsOf s.files).Nodup) :
    (detachM s p).currSize = sumSizes (detachM s p).files ∧
    (∀ e ∈ (detachM s p).files, e ∈ s.files) ∧
    (pathsOf (detachM s p).files).Nodup ∧
    p ∉ pathsOf (detachM s p).files ∧
    (detachM s p).base = s.base ∧
    (detachM s p).cache = s.cache ∧
    (detachM s p).handles = s.handles ∧
    (detachM s p).now = s.now ∧
    (detachM s p).cacheSize = s.cacheSize ∧
    (detachM s p).cacheTime = s.cacheTime := by
  unfold detachM
  by_cases hg : (getCacheFileM s p).isSome
  · rw [if_pos hg]
    exact removeFromCacheM_spec s p hsum hnd
  · rw [if_neg hg]
    have hnone : findEntry s.files p = none := by
      cases hf : findEntry s.files p with
      | none => rfl
      | some e => rw [getCacheFileM, hf] at hg; simp at hg
    refine ⟨hsum, fun e he => he, hnd, findEntry_eq_none.mp hnone, rfl, rfl, rfl, rfl, rfl, rfl⟩

end Kafero

namespace Kafero

/-! ## The quantified invariant over overlay states -/

/-- The state invariant maintained by every allowed trace: the accounting
identity, key uniqueness of the index, nonnegative sizes, detachment of
every open handle's path, the entry carried by a handle names the
handle's path, and no two open handles share a path. -/
structure CInv (s : CState) : Prop where
  sum : s.currSize = sumSizes s.files
  nodup : (pathsOf s.files).Nodup
  nonneg : ∀ e ∈ s.files, 0 ≤ e.size
  hOpen : ∀ h ∈ s.handles, h.closed = false → h.path ∉ pathsOf s.files
  hInfo : ∀ h ∈ s.handles, h.closed = false → ∀ e, h.info = some e → e.path = h.path
  hDisj : ∀ (i j : Nat) (hi hj : HState), s.handles[i]? = some hi → s.handles[j]? = some hj →
    hi.closed = false → hj.closed = false → i ≠ j → hi.path ≠ hj.path

theorem initState_inv (cacheSize cacheTime : Int) : CInv (initState cacheSize cacheTime) := by
  refine ⟨rfl, ?_, ?_, ?_, ?_, ?_⟩ <;> simp [initState, sumSizes, pathsOf]

theorem openPath_mem {s : CState} {h : HState}
    (hm : h ∈ s.handles) (hop : h.closed = false) : h.path ∈ openPathsOf s := by
  unfold openPathsOf
  exact List.mem_map_of_mem _ (List.mem_filter.mpr ⟨hm, by simp [hop]⟩)

theorem getElem?_append_lt {α : Type} {l1 l2 : List α} {i : Nat} (h : i < l1.length) :
    (l1 ++ l2)[i]? = l1[i]? := by
  rw [List.getElem?_append, if_pos h]

theorem getElem?_append_ge {α : Type} {l1 l2 : List α} {i : Nat} (h : l1.length ≤ i) :
    (l1 ++ l2)[i]? = l2[i - l1.length]? := by
  rw [List.getElem?_append, if_neg (by omega)]

end Kafero

namespace Kafero

theorem getElem?_singleton {α : Type} {a b : α} {k : Nat}
    (h : ([a] : List α)[k]? = some b) : k = 0 ∧ b = a := by
  cases k with
  | zero =>
    simp only [List.getElem?_cons_zero, Option.some.injEq] at h
    exact ⟨rfl, h.symm⟩
  | succ n =>
    simp at h

theorem pathsOf_sub {l1 l2 : List CacheEntry} (hsub : ∀ e ∈ l1, e ∈ l2) :
    ∀ q ∈ pathsOf l1, q ∈ pathsOf l2 := by
  intro q hq
  obtain ⟨e, he, hp⟩ := mem_pathsOf.mp hq
  exact mem_pathsOf.mpr ⟨e, hsub e he, hp⟩

/-- Preservation of the invariant when a fresh open handle is appended
(the common tail of Create, Open and OpenFile). -/
theorem cinv_append {s0 s2 : CState} (hNew : HState) (name : Path)
    (inv : CInv s0)
    (hfiles_sub : ∀ e ∈ s2.files, e ∈ s0.files)
    (hsum2 : s2.currSize = sumSizes s2.files)
    (hnd2 : (pathsOf s2.files).Nodup)
    (hhandles : s2.handles = s0.handles ++ [hNew])
    (hpath : hNew.path = name)
    (hguard : name ∉ openPathsOf s0)
    (hnewfresh : name ∉ pathsOf s2.files)
    (hnewinfo : ∀ e, hNew.info = some e → e.path = name) :
    CInv s2 := by
  subst hpath
  refine ⟨hsum2, hnd2, ?_, ?_, ?_, ?_⟩
  · exact fun e he => inv.nonneg e (hfiles_sub e he)
  · intro h hm hop
    rw [hhandles] at hm
    rcases List.mem_append.mp hm with hm | hm
    · intro hq
      exact inv.hOpen h hm hop (pathsOf_sub hfiles_sub _ hq)
    · obtain rfl := List.mem_singleton.mp hm
      exact hnewfresh
  · intro h hm hop e hinf
    rw [hhandles] at hm
    rcases List.mem_append.mp hm with hm | hm
    · exact inv.hInfo h hm hop e hinf
    · obtain rfl := List.mem_singleton.mp hm
      exact hnewinfo e hinf
  · intro i j hi hj hgi hgj hci hcj hne
    rw [hhandles] at hgi hgj
    by_cases hilt : i < s0.handles.length
    · rw [getElem?_append_lt hilt] at hgi
      by_cases hjlt : j < s0.handles.length
      · rw [getElem?_append_lt hjlt] at hgj
        exact inv.hDisj i j hi hj hgi hgj hci hcj hne
      · rw [getElem?_append_ge (by omega)] at hgj
        obtain ⟨hk, rfl⟩ := getElem?_singleton hgj
        intro hpq
        exact hguard (hpq ▸ openPath_mem (List.getElem?_mem hgi) hci)
    · rw [getElem?_append_ge (by omega)] at hgi
      obtain ⟨hki, rfl⟩ := getElem?_singleton hgi
      by_cases hjlt : j < s0.handles.length
      · rw [getElem?_append_lt hjlt] at hgj
        intro hpq
        exact hguard (hpq.symm ▸ openPath_mem (List.getElem?_mem hgj) hcj)
      · rw [getElem?_append_ge (by omega)] at hgj
        obtain ⟨hkj, _⟩ := getElem?_singleton hgj
        exact absurd (by omega : i = j) hne

end Kafero

namespace Kafero

theorem copyToCacheM_info {s : CState} {name : Path} {res : CopyRes}
    {io : Option CacheEntry}
    (h : (copyToCacheM s name res).2 = .ok io) :
    ∀ e, io = some e → e.path = name ∧ 0 ≤ e.size := by
  unfold copyToCacheM at h
  split at h
  · simp at h
  · rename_i bIno hts
    cases res with
    | copyFailed part => simp at h
    | shortCount part n =>
      dsimp only at h
      split at h
      · obtain rfl := Except.ok.inj h
        intro e he
        obtain rfl := Option.some.inj he
        exact ⟨rfl, Int.ofNat_nonneg _⟩
      · simp at h
    | success =>
      obtain rfl := Except.ok.inj h
      intro e he
      obtain rfl := Option.some.inj he
      exact ⟨rfl, Int.ofNat_nonneg _⟩

theorem openROBottom_spec {s : CState} {name : Path} {info : Option CacheEntry} {s2 : CState}
    (hrun : openROBottom s name info = .ok s2) :
    ∃ cid, s2 = { s with handles := s.handles ++
      [{ path := name, flag := 0, baseId := flookup s.base.dir name, cacheId := cid
       , basePos := 0, cachePos := 0, info := info, closed := false }] } := by
  unfold openROBottom at hrun
  split at hrun
  · simp at hrun
  · rename_i cid hcid
    split at hrun
    · simp at hrun
    · exact ⟨cid, (Except.ok.inj hrun).symm⟩

/-- Invariant preservation by Create. -/
theorem createStep_inv {s0 s2 : CState} {name : Path}
    (inv : CInv s0)
    (hg : name ∉ openPathsOf s0)
    (hrun : createStep s0 name = .ok s2) : CInv s2 := by
  unfold createStep at hrun
  dsimp only at hrun
  obtain rfl := Except.ok.inj hrun
  obtain ⟨r1, r2, r3, r4, r5, r6, r7, r8, r9, r10⟩ :=
    removeFromCacheM_spec
      { s0 with
        now := s0.now + 1,
        base := (tierCreate s0.base name (s0.now + 1)).1,
        cache := (tierCreate s0.cache name (s0.now + 1)).1 }
      name inv.sum inv.nodup
  refine cinv_append
      { path := name, flag := O_RDWR ||| O_CREATE ||| O_TRUNC,
        baseId := some (tierCreate s0.base name (s0.now + 1)).2,
        cacheId := (tierCreate s0.cache name (s0.now + 1)).2,
        basePos := 0, cachePos := 0,
        info := some { path := name, size := 0, lastAccessTime := s0.now + 1 },
        closed := false }
      name inv r2 r1 r3 ?_ rfl hg r4 ?_
  · rw [r7]
  · intro e he
    obtain rfl := Option.some.inj he
    rfl

end Kafero

namespace Kafero

theorem copyToCacheM_fields (s : CState) (name : Path) (res : CopyRes) :
    (copyToCacheM s name res).1.files = s.files ∧
    (copyToCacheM s name res).1.currSize = s.currSize ∧
    (copyToCacheM s name res).1.handles = s.handles ∧
    (copyToCacheM s name res).1.base = s.base ∧
    (copyToCacheM s name res).1.now = s.now ∧
    (copyToCacheM s name res).1.cacheSize = s.cacheSize ∧
    (copyToCacheM s name res).1.cacheTime = s.cacheTime := by
  refine ⟨?_, ?_, ?_, ?_, ?_, ?_, ?_⟩ <;> rw [copyToCacheM_state s name res]

/-- Invariant preservation by Open. -/
theorem openROStep_inv {s0 s2 : CState} {name : Path}
    (inv : CInv s0) (hg : name ∉ openPathsOf s0)
    (hrun : openROStep s0 name = .ok s2) : CInv s2 := by
  unfold openROStep at hrun
  dsimp only at hrun
  obtain ⟨d1, d2, d3, d4, d5, d6, d7, d8, d9, d10⟩ :=
    detachM_spec { s0 with now := s0.now + 1 } name inv.sum inv.nodup
  have hinfo0 : ∀ e, getCacheFileM { s0 with now := s0.now + 1 } name = some e →
      e.path = name := by
    intro e he
    exact (findEntry_some he).2
  split at hrun
  · obtain ⟨cid, rfl⟩ := openROBottom_spec hrun
    refine cinv_append
        { path := name, flag := 0,
          baseId := flookup (detachM { s0 with now := s0.now + 1 } name).base.dir name,
          cacheId := cid, basePos := 0, cachePos := 0,
          info := getCacheFileM { s0 with now := s0.now + 1 } name, closed := false }
        name inv d2 d1 d3 ?_ rfl hg d4 ?_
    · rw [d7]
    · exact hinfo0
  · obtain ⟨cid, rfl⟩ := openROBottom_spec hrun
    refine cinv_append
        { path := name, flag := 0,
          baseId := flookup (detachM { s0 with now := s0.now + 1 } name).base.dir name,
          cacheId := cid, basePos := 0, cachePos := 0,
          info := getCacheFileM { s0 with now := s0.now + 1 } name, closed := false }
        name inv d2 d1 d3 ?_ rfl hg d4 ?_
    · rw [d7]
    · exact hinfo0
  · split at hrun
    · exact absurd hrun (by simp)
    · split at hrun
      · exact absurd hrun (by simp)
      · rename_i infoN hcp
        obtain ⟨c1, c2, c3, c4, c5, c6, c7⟩ :=
          copyToCacheM_fields (detachM { s0 with now := s0.now + 1 } name) name .success
        obtain ⟨cid, rfl⟩ := openROBottom_spec hrun
        refine cinv_append
            { path := name, flag := 0,
              baseId := flookup
                (copyToCacheM (detachM { s0 with now := s0.now + 1 } name) name
                  .success).1.base.dir name,
              cacheId := cid, basePos := 0, cachePos := 0,
              info := infoN, closed := false }
            name inv ?_ ?_ ?_ ?_ rfl hg ?_ ?_
        · rw [c1]; exact d2
        · rw [c2, c1]; exact d1
        · rw [c1]; exact d3
        · rw [c3, d7]
        · rw [c1]; exact d4
        · exact fun e he => (copyToCacheM_info hcp e he).1
  · split at hrun
    · exact absurd hrun (by simp)
    · rename_i infoN hcp
      obtain ⟨c1, c2, c3, c4, c5, c6, c7⟩ :=
        copyToCacheM_fields (detachM { s0 with now := s0.now + 1 } name) name .success
      obtain ⟨cid, rfl⟩ := openROBottom_spec hrun
      refine cinv_append
          { path := name, flag := 0,
            baseId := flookup
              (copyToCacheM (detachM { s0 with now := s0.now + 1 } name) name
                .success).1.base.dir name,
            cacheId := cid, basePos := 0, cachePos := 0,
            info := infoN, closed := false }
          name inv ?_ ?_ ?_ ?_ rfl hg ?_ ?_
      · rw [c1]; exact d2
      · rw [c2, c1]; exact d1
      · rw [c1]; exact d3
      · rw [c3, d7]
      · rw [c1]; exact d4
      · exact fun e he => (copyToCacheM_info hcp e he).1

end Kafero

namespace Kafero

theorem openF_tail_inv {s0 s2x : CState} {info1 : Option CacheEntry}
    {name : Path} {flag : Nat} {bt ct : Tier} {bid cid bpos cpos : Nat}
    (inv : CInv s0) (hg : name ∉ openPathsOf s0)
    (hfiles_sub : ∀ e ∈ s2x.files, e ∈ s0.files)
    (hsum : s2x.currSize = sumSizes s2x.files)
    (hnd : (pathsOf s2x.files).Nodup)
    (hh : s2x.handles = s0.handles)
    (hfresh : name ∉ pathsOf s2x.files)
    (hinfo : ∀ e, info1 = some e → e.path = name) :
    CInv { s2x with base := bt, cache := ct, handles := s2x.handles ++
      [{ path := name, flag := flag, baseId := some bid, cacheId := cid
       , basePos := bpos, cachePos := cpos, info := info1, closed := false }] } := by
  refine cinv_append
      { path := name, flag := flag, baseId := some bid, cacheId := cid
      , basePos := bpos, cachePos := cpos, info := info1, closed := false }
      name inv hfiles_sub hsum hnd ?_ rfl hg hfresh hinfo
  rw [hh]

/-- Invariant preservation by OpenFile. -/
theorem openFStep_inv {s0 s2 : CState} {name : Path} {flag : Nat}
    (inv : CInv s0) (hg : name ∉ openPathsOf s0)
    (hrun : openFStep s0 name flag = .ok s2) : CInv s2 := by
  unfold openFStep at hrun
  dsimp only at hrun
  obtain ⟨d1, d2, d3, d4, d5, d6, d7, d8, d9, d10⟩ :=
    detachM_spec { s0 with now := s0.now + 1 } name inv.sum inv.nodup
  split at hrun
  · exact absurd hrun (by simp)
  · rename_i s2x info1 hAC
    split at hrun
    · exact absurd hrun (by simp)
    · rename_i bt bid bpos hbt
      split at hrun
      · exact absurd hrun (by simp)
      · rename_i ct cid cpos hct
        obtain rfl := Except.ok.inj hrun
        split at hAC
        · obtain ⟨rfl, rfl⟩ := Prod.mk.injEq .. ▸ (Except.ok.inj hAC)
          exact openF_tail_inv inv hg d2 d1 d3 d7 d4 fun e he => (findEntry_some he).2
        · obtain ⟨rfl, rfl⟩ := Prod.mk.injEq .. ▸ (Except.ok.inj hAC)
          exact openF_tail_inv inv hg d2 d1 d3 d7 d4 fun e he => (findEntry_some he).2
        · split at hAC
          · split at hAC
            · exact absurd hAC (by simp)
            · rename_i infoN hcp
              obtain ⟨rfl, rfl⟩ := Prod.mk.injEq .. ▸ (Except.ok.inj hAC)
              obtain ⟨c1, c2, c3, c4, c5, c6, c7⟩ :=
                copyToCacheM_fields (detachM { s0 with now := s0.now + 1 } name) name .success
              refine openF_tail_inv inv hg ?_ ?_ ?_ ?_ ?_ ?_
              · rw [c1]; exact d2
              · rw [c2, c1]; exact d1
              · rw [c1]; exact d3
              · rw [c3, d7]
              · rw [c1]; exact d4
              · exact fun e he => (copyToCacheM_info hcp e he).1
          · obtain ⟨rfl, rfl⟩ := Prod.mk.injEq .. ▸ (Except.ok.inj hAC)
            refine openF_tail_inv inv hg d2 d1 d3 d7 d4 ?_
            intro e he
            obtain rfl := Option.some.inj he
            rfl

end Kafero

namespace Kafero

theorem getElem?_some_lt {α : Type} {l : List α} {i : Nat} {a : α}
    (h : l[i]? = some a) : i < l.length := by
  rcases List.getElem?_eq_some.mp h with ⟨hl, _⟩
  exact hl

theorem set_closed_open_mem {l : List HState} {i : Nat} {h h2 q : HState}
    (hh : l[i]? = some h) (hcl2 : h2.closed = true)
    (hdisj : ∀ (a b : Nat) (ha hb : HState), l[a]? = some ha → l[b]? = some hb →
      ha.closed = false → hb.closed = false → a ≠ b → ha.path ≠ hb.path)
    (hope : h.closed = false)
    (hq : q ∈ l.set i h2) (hqo : q.closed = false) :
    q ∈ l ∧ q.path ≠ h.path := by
  obtain ⟨j, hj⟩ := List.mem_iff_getElem?.mp hq
  by_cases hij : i = j
  · subst hij
    rw [List.getElem?_set_self (getElem?_some_lt hh)] at hj
    obtain rfl := Option.some.inj hj
    rw [hcl2] at hqo
    cases hqo
  · rw [List.getElem?_set_ne hij] at hj
    exact ⟨List.getElem?_mem hj,
      hdisj j i q h hj hh hqo hope (fun hc => hij hc.symm)⟩

theorem hdisj_set_closed {l : List HState} {i : Nat} {h2 : HState}
    (hcl2 : h2.closed = true)
    (hdisj : ∀ (a b : Nat) (ha hb : HState), l[a]? = some ha → l[b]? = some hb →
      ha.closed = false → hb.closed = false → a ≠ b → ha.path ≠ hb.path) :
    ∀ (a b : Nat) (ha hb : HState), (l.set i h2)[a]? = some ha → (l.set i h2)[b]? = some hb →
      ha.closed = false → hb.closed = false → a ≠ b → ha.path ≠ hb.path := by
  intro a b ha hb hga hgb hca hcb hne
  by_cases hia : i = a
  · subst hia
    by_cases hlen : i < l.length
    · rw [List.getElem?_set_self hlen] at hga
      obtain rfl := Option.some.inj hga
      rw [hcl2] at hca
      cases hca
    · rw [List.getElem?_eq_none (by simpa using Nat.le_of_not_lt hlen)] at hga
      cases hga
  · rw [List.getElem?_set_ne hia] at hga
    by_cases hib : i = b
    · subst hib
      by_cases hlen : i < l.length
      · rw [List.getElem?_set_self hlen] at hgb
        obtain rfl := Option.some.inj hgb
        rw [hcl2] at hcb
        cases hcb
      · rw [List.getElem?_eq_none (by simpa using Nat.le_of_not_lt hlen)] at hgb
        cases hgb
    · rw [List.getElem?_set_ne hib] at hgb
      exact hdisj a b ha hb hga hgb hca hcb hne

theorem hdisj_set_same {l : List HState} {i : Nat} {h h2 : HState}
    (hh : l[i]? = some h) (hp : h2.path = h.path) (hc : h2.closed = h.closed)
    (hdisj : ∀ (a b : Nat) (ha hb : HState), l[a]? = some ha → l[b]? = some hb →
      ha.closed = false → hb.closed = false → a ≠ b → ha.path ≠ hb.path) :
    ∀ (a b : Nat) (ha hb : HState), (l.set i h2)[a]? = some ha → (l.set i h2)[b]? = some hb →
      ha.closed = false → hb.closed = false → a ≠ b → ha.path ≠ hb.path := by
  intro a b ha hb hga hgb hca hcb hne
  by_cases hia : i = a
  · subst hia
    rw [List.getElem?_set_self (getElem?_some_lt hh)] at hga
    obtain rfl := Option.some.inj hga
    by_cases hib : i = b
    · exact absurd hib hne
    · rw [List.getElem?_set_ne hib] at hgb
      rw [hp]
      exact hdisj i b h hb hh hgb (hc ▸ hca) hcb hne
  · rw [List.getElem?_set_ne hia] at hga
    by_cases hib : i = b
    · subst hib
      rw [List.getElem?_set_self (getElem?_some_lt hh)] at hgb
      obtain rfl := Option.some.inj hgb
      rw [hp]
      exact hdisj a i ha h hga hh hca (hc ▸ hcb) hne
    · rw [List.getElem?_set_ne hib] at hgb
      exact hdisj a b ha hb hga hgb hca hcb hne

/-- Invariant preservation by a handle write. -/
theorem writeStep_inv {s0 s2 : CState} {i : Nat} {b : Bytes}
    (inv : CInv s0) (hrun : writeStep s0 i b = .ok s2) : CInv s2 := by
  unfold writeStep at hrun
  dsimp only at hrun
  split at hrun
  · exact absurd hrun (by simp)
  · rename_i h hh
    split at hrun
    · exact absurd hrun (by simp)
    · rename_i hcl
      split at hrun
      · exact absurd hrun (by simp)
      · rename_i hfl
        split at hrun
        · exact absurd hrun (by simp)
        · rename_i ino hino
          obtain rfl := Except.ok.inj hrun
          have hclf : h.closed = false := by
            revert hcl
            cases h.closed <;> simp
          refine ⟨inv.sum, inv.nodup, inv.nonneg, ?_, ?_, ?_⟩
          · intro q hq hqo
            rcases List.mem_or_eq_of_mem_set hq with hq | rfl
            · exact inv.hOpen q hq hqo
            · exact inv.hOpen h (List.getElem?_mem hh) hclf
          · intro q hq hqo e hinf
            rcases List.mem_or_eq_of_mem_set hq with hq | rfl
            · exact inv.hInfo q hq hqo e hinf
            · exact inv.hInfo h (List.getElem?_mem hh) hclf e hinf
          · exact hdisj_set_same hh rfl rfl inv.hDisj

/-- Invariant preservation by Remove. -/
theorem removeStep_inv {s0 s2 : CState} {name : Path}
    (inv : CInv s0) (hrun : removeStep s0 name = .ok s2) : CInv s2 := by
  unfold removeStep at hrun
  dsimp only at hrun
  split at hrun
  · split at hrun
    · exact absurd hrun (by simp)
    · rename_i ct hct
      obtain ⟨r1, r2, r3, r4, r5, r6, r7, r8, r9, r10⟩ :=
        removeFromCacheM_spec { { s0 with now := s0.now + 1 } with cache := ct } name
          inv.sum inv.nodup
      split at hrun
      · exact absurd hrun (by simp)
      · rename_i bt hbt
        obtain rfl := Except.ok.inj hrun
        refine ⟨r1, r3, fun e he => inv.nonneg e (r2 e he), ?_, ?_, ?_⟩
        · intro q hq hqo
          rw [r7] at hq
          intro hmem
          exact inv.hOpen q hq hqo (pathsOf_sub r2 _ hmem)
        · intro q hq hqo e hinf
          rw [r7] at hq
          exact inv.hInfo q hq hqo e hinf
        · intro a bb ha hb hga hgb hca hcb hne
          dsimp only at hga hgb
          rw [r7] at hga hgb
          exact inv.hDisj a bb ha hb hga hgb hca hcb hne
  · split at hrun
    · exact absurd hrun (by simp)
    · rename_i bt hbt
      obtain rfl := Except.ok.inj hrun
      exact ⟨inv.sum, inv.nodup, inv.nonneg, inv.hOpen, inv.hInfo, inv.hDisj⟩

end Kafero

namespace Kafero

theorem syncH_fields {s s1 : CState} {h h1 : HState}
    (hrun : syncH s h = .ok (s1, h1)) :
    s1.files = s.files ∧ s1.currSize = s.currSize ∧ s1.handles = s.handles ∧
    s1.cache = s.cache ∧ s1.now = s.now ∧ s1.cacheSize = s.cacheSize ∧
    s1.cacheTime = s.cacheTime ∧
    h1.path = h.path ∧ h1.info = h.info ∧ h1.closed = h.closed ∧
    h1.flag = h.flag ∧ h1.baseId = h.baseId ∧ h1.cacheId = h.cacheId ∧
    h1.cachePos = h.cachePos := by
  unfold syncH at hrun
  split at hrun
  · obtain ⟨rfl, rfl⟩ := Prod.mk.injEq .. ▸ (Except.ok.inj hrun)
    exact ⟨rfl, rfl, rfl, rfl, rfl, rfl, rfl, rfl, rfl, rfl, rfl, rfl, rfl, rfl⟩
  · split at hrun
    · exact absurd hrun (by simp)
    · split at hrun
      · exact absurd hrun (by simp)
      · split at hrun
        · exact absurd hrun (by simp)
        · obtain ⟨rfl, rfl⟩ := Prod.mk.injEq .. ▸ (Except.ok.inj hrun)
          exact ⟨rfl, rfl, rfl, rfl, rfl, rfl, rfl, rfl, rfl, rfl, rfl, rfl, rfl, rfl⟩

/-- Invariant preservation by a handle close. -/
theorem closeStep_inv {s0 s2 : CState} {i : Nat}
    (inv : CInv s0) (hrun : closeStep s0 i = .ok s2) : CInv s2 := by
  unfold closeStep at hrun
  dsimp only at hrun
  split at hrun
  · exact absurd hrun (by simp)
  · rename_i h hh
    split at hrun
    · exact absurd hrun (by simp)
    · rename_i hcl
      have hclf : h.closed = false := by
        revert hcl
        cases h.closed <;> simp
      split at hrun
      · exact absurd hrun (by simp)
      · rename_i s1 h1 hsy
        obtain ⟨y1, y2, y3, y4, y5, y6, y7, y8, y9, y10, y11, y12, y13, y14⟩ :=
          syncH_fields hsy
        split at hrun
        · exact absurd hrun (by simp)
        · rename_i bid hbid
          split at hrun
          · exact absurd hrun (by simp)
          · rename_i bIno hbIno
            -- the handle list of the intermediate state
            have hmem : h ∈ s0.handles := List.getElem?_mem hh
            cases hinfo : h.info with
            | none =>
              rw [hinfo] at hrun
              obtain rfl := Except.ok.inj hrun
              refine ⟨?_, ?_, ?_, ?_, ?_, ?_⟩
              · dsimp only
                rw [y1, y2]
                exact inv.sum
              · dsimp only
                rw [y1]
                exact inv.nodup
              · dsimp only
                rw [y1]
                exact inv.nonneg
              · intro q hq hqo
                dsimp only at hq ⊢
                rw [y1]
                rw [y3] at hq
                rcases List.mem_or_eq_of_mem_set hq with hq | rfl
                · exact inv.hOpen q hq hqo
                · cases hqo
              · intro q hq hqo e hinf
                dsimp only at hq
                rw [y3] at hq
                rcases List.mem_or_eq_of_mem_set hq with hq | rfl
                · exact inv.hInfo q hq hqo e hinf
                · cases hqo
              · intro a bb ha hb hga hgb hca hcb hne
                dsimp only at hga hgb
                rw [y3] at hga hgb
                exact hdisj_set_closed rfl inv.hDisj a bb ha hb hga hgb hca hcb hne
            | some e =>
              rw [hinfo] at hrun
              have hepath : e.path = h.path := inv.hInfo h hmem hclf e hinfo
              have hfresh : e.path ∉ pathsOf s0.files :=
                fun hmem2 => inv.hOpen h hmem hclf (hepath ▸ hmem2)
              obtain ⟨a1, a2, a3, a4, a5, a6, a7, a8, a9, a10, a11⟩ :=
                addToCacheM_spec hrun (by dsimp only; rw [y1, y2]; exact inv.sum)
                  (by dsimp only; rw [y1]; exact inv.nonneg)
                  (by dsimp only; rw [y1]; exact inv.nodup)
                  (by dsimp only; rw [y1]; exact hfresh)
                  (Int.ofNat_nonneg _)
              have hhfin : s2.handles = s0.handles.set i { h1 with closed := true } := by
                rw [a8]
                dsimp only
                rw [y3]
              refine ⟨a1, a2, a3, ?_, ?_, ?_⟩
              · intro q hq hqo
                rw [hhfin] at hq
                obtain ⟨hq2, hqne⟩ := set_closed_open_mem hh rfl inv.hDisj hclf hq hqo
                intro hmem2
                obtain ⟨en, hen, henp⟩ := mem_pathsOf.mp hmem2
                rcases a4 en hen with rfl | hold
                · dsimp only at henp
                  exact hqne (henp ▸ hepath ▸ rfl)
                · rw [y1] at hold
                  exact inv.hOpen q hq2 hqo (mem_pathsOf.mpr ⟨en, hold, henp⟩)
              · intro q hq hqo e2 hinf
                rw [hhfin] at hq
                rcases List.mem_or_eq_of_mem_set hq with hq | rfl
                · exact inv.hInfo q hq hqo e2 hinf
                · cases hqo
              · intro a bb ha hb hga hgb hca hcb hne
                rw [hhfin] at hga hgb
                exact hdisj_set_closed rfl inv.hDisj a bb ha hb hga hgb hca hcb hne

end Kafero

namespace Kafero

theorem stepInv {s0 s2 : CState} {op : Op}
    (inv : CInv s0) (hal : allowedB s0 op = true) (hrun : step s0 op = .ok s2) : CInv s2 := by
  cases op with
  | create p =>
    refine createStep_inv inv ?_ hrun
    simp only [allowedB, Bool.not_eq_eq_eq_not, Bool.not_true] at hal
    intro hmem
    rw [List.contains_eq_any_beq] at hal
    have : (openPathsOf s0).any (fun q => p == q) = true :=
      List.any_eq_true.mpr ⟨p, hmem, by simp⟩
    rw [this] at hal
    cases hal
  | openRO p =>
    refine openROStep_inv inv ?_ hrun
    simp only [allowedB, Bool.not_eq_eq_eq_not, Bool.not_true] at hal
    intro hmem
    rw [List.contains_eq_any_beq] at hal
    have : (openPathsOf s0).any (fun q => p == q) = true :=
      List.any_eq_true.mpr ⟨p, hmem, by simp⟩
    rw [this] at hal
    cases hal
  | openF p flag =>
    refine openFStep_inv inv ?_ hrun
    simp only [allowedB, Bool.not_eq_eq_eq_not, Bool.not_true] at hal
    intro hmem
    rw [List.contains_eq_any_beq] at hal
    have : (openPathsOf s0).any (fun q => p == q) = true :=
      List.any_eq_true.mpr ⟨p, hmem, by simp⟩
    rw [this] at hal
    cases hal
  | write i b => exact writeStep_inv inv hrun
  | close i => exact closeStep_inv inv hrun
  | remove p => exact removeStep_inv inv hrun
  | rename a b => simp [allowedB] at hal

theorem runTrace_inv : ∀ (ops : List Op) (s : CState), CInv s →
    allowedTraceB s ops = true → ∀ s2, runTrace s ops = .ok s2 → CInv s2 := by
  intro ops
  induction ops with
  | nil =>
    intro s inv hal s2 hrun
    rw [runTrace] at hrun
    obtain rfl := Except.ok.inj hrun
    exact inv
  | cons op rest ih =>
    intro s inv hal s2 hrun
    rw [runTrace] at hrun
    rw [allowedTraceB] at hal
    cases hstep : step s op with
    | error e =>
      rw [hstep] at hrun
      exact absurd hrun (by simp)
    | ok s1 =>
      rw [hstep] at hrun hal
      simp only [Bool.and_eq_true] at hal
      exact ih s1 (stepInv inv hal.1 hstep) hal.2 s2 hrun

end Kafero

namespace Kafero

theorem slookup_sset_self (st : List (Nat × Inode)) (i : Nat) (ino : Inode) :
    slookup (sset st i ino) i = some ino := by
  induction st with
  | nil => simp [sset, slookup]
  | cons pr rest ih =>
    obtain ⟨j, x⟩ := pr
    by_cases hji : j = i
    · rw [sset, if_pos hji, slookup, if_pos rfl]
    · rw [sset, if_neg hji, slookup, if_neg hji]
      exact ih

/-- What Close does to the index when the handle carries a detached
entry: the entry is re-admitted with the final base size and the close
timestamp, and the accounting identity plus the capacity-or-size bound
hold afterwards. -/
theorem closeStep_readmit {s0 s2 : CState} {i : Nat} {h : HState} {e : CacheEntry}
    (hh : s0.handles[i]? = some h)
    (hinfo : h.info = some e)
    (hsum : s0.currSize = sumSizes s0.files)
    (hnn : ∀ x ∈ s0.files, 0 ≤ x.size)
    (hnd : (pathsOf s0.files).Nodup)
    (hfresh : e.path ∉ pathsOf s0.files)
    (hrun : closeStep s0 i = .ok s2) :
    ∃ sz : Int,
      findEntry s2.files e.path =
        some { path := e.path, size := sz, lastAccessTime := s0.now + 1 } ∧
      0 ≤ sz ∧
      s2.currSize ≤ max s0.cacheSize sz ∧
      s2.currSize = sumSizes s2.files ∧
      (h.flag = 0 → ∀ bid bIno, h.baseId = some bid →
        slookup s0.base.store bid = some bIno → sz = Int.ofNat bIno.data.length) ∧
      (h.flag ≠ 0 → ∀ cIno, slookup s0.cache.store h.cacheId = some cIno →
        sz = Int.ofNat cIno.data.length) := by
  unfold closeStep at hrun
  dsimp only at hrun
  split at hrun
  · exact absurd hrun (by simp)
  · rename_i h9 hh9
    rw [hh] at hh9
    obtain rfl := Option.some.inj hh9
    split at hrun
    · exact absurd hrun (by simp)
    · rename_i hcl
      split at hrun
      · exact absurd hrun (by simp)
      · rename_i s1 h1 hsy
        by_cases hf : h.flag = 0
        · -- read-only: sync is a no-op
          rw [show syncH { s0 with now := s0.now + 1 } h =
              .ok ({ s0 with now := s0.now + 1 }, h) from by
            unfold syncH; rw [if_pos hf]] at hsy
          obtain ⟨rfl, rfl⟩ := Prod.mk.injEq .. ▸ (Except.ok.inj hsy)
          split at hrun
          · exact absurd hrun (by simp)
          · rename_i bid hbid
            split at hrun
            · exact absurd hrun (by simp)
            · rename_i bIno hbIno
              rw [hinfo] at hrun
              obtain ⟨a1, a2, a3, a4, a5, a6, a7, a8, a9, a10, a11⟩ :=
                addToCacheM_spec hrun (by dsimp only; exact hsum)
                  (by dsimp only; exact hnn)
                  (by dsimp only; exact hnd)
                  (by dsimp only; exact hfresh)
                  (Int.ofNat_nonneg _)
              refine ⟨Int.ofNat bIno.data.length, a5, Int.ofNat_nonneg _, a6, a1, ?_, ?_⟩
              · intro _ bid2 bIno2 hbid2 hbIno2
                rw [hbid] at hbid2
                obtain rfl := Option.some.inj hbid2
                dsimp only at hbIno
                rw [hbIno] at hbIno2
                obtain rfl := Option.some.inj hbIno2
                rfl
              · intro hf2
                exact absurd hf hf2
        · -- writing: sync copies the cache data into the base inode
          rw [show (syncH { s0 with now := s0.now + 1 } h) =
              (match h.baseId with
               | none => .error .nilDeref
               | some bid =>
                 match slookup s0.base.store bid with
                 | none => .error .wrapped
                 | some _ =>
                   match slookup s0.cache.store h.cacheId with
                   | none => .error .wrapped
                   | some cIno =>
                     .ok ({ { s0 with now := s0.now + 1 } with
                             base := { s0.base with
                               store := sset s0.base.store bid
                                 { data := cIno.data, mtime := s0.now + 1 } } },
                          { h with basePos := cIno.data.length })) from by
            unfold syncH; rw [if_neg hf]] at hsy
          split at hsy
          · exact absurd hsy (by simp)
          · rename_i bid0 hbid0
            split at hsy
            · exact absurd hsy (by simp)
            · rename_i bIno0 hbIno0
              split at hsy
              · exact absurd hsy (by simp)
              · rename_i cIno hcIno
                obtain ⟨rfl, rfl⟩ := Prod.mk.injEq .. ▸ (Except.ok.inj hsy)
                split at hrun
                · exact absurd hrun (by simp)
                · rename_i bid hbid
                  dsimp only at hbid
                  rw [hbid0] at hbid
                  obtain rfl := Option.some.inj hbid
                  split at hrun
                  · exact absurd hrun (by simp)
                  · rename_i bIno hbIno
                    dsimp only at hbIno
                    rw [slookup_sset_self] at hbIno
                    obtain rfl := Option.some.inj hbIno
                    rw [hinfo] at hrun
                    obtain ⟨a1, a2, a3, a4, a5, a6, a7, a8, a9, a10, a11⟩ :=
                      addToCacheM_spec hrun (by dsimp only; exact hsum)
                        (by dsimp only; exact hnn)
                        (by dsimp only; exact hnd)
                        (by dsimp only; exact hfresh)
                        (Int.ofNat_nonneg _)
                    refine ⟨Int.ofNat cIno.data.length, a5, Int.ofNat_nonneg _, a6, a1,
                      ?_, ?_⟩
                    · intro hf0
                      exact absurd hf0 hf
                    · intro _ cIno2 hcIno2
                      rw [hcIno] at hcIno2
                      obtain rfl := Option.some.inj hcIno2
                      rfl

/-- Close of a handle that carries no entry leaves the index untouched. -/
theorem closeStep_noinfo {s0 s2 : CState} {i : Nat} {h : HState}
    (hh : s0.handles[i]? = some h)
    (hinfo : h.info = none)
    (hrun : closeStep s0 i = .ok s2) :
    s2.files = s0.files ∧ s2.currSize = s0.currSize := by
  unfold closeStep at hrun
  dsimp only at hrun
  split at hrun
  · exact absurd hrun (by simp)
  · rename_i h9 hh9
    rw [hh] at hh9
    obtain rfl := Option.some.inj hh9
    split at hrun
    · exact absurd hrun (by simp)
    · rename_i hcl
      split at hrun
      · exact absurd hrun (by simp)
      · rename_i s1 h1 hsy
        obtain ⟨y1, y2, y3, y4, y5, y6, y7, y8, y9, y10, y11, y12, y13, y14⟩ :=
          syncH_fields hsy
        split at hrun
        · exact absurd hrun (by simp)
        · rename_i bid hbid
          split at hrun
          · exact absurd hrun (by simp)
          · rename_i bIno hbIno
            rw [hinfo] at hrun
            obtain rfl := Except.ok.inj hrun
            constructor
            · dsimp only
              rw [y1]
            · dsimp only
              rw [y2]

end Kafero

namespace Kafero

def exceptOk {ε α : Type} : Except ε α → Bool
  | .ok _ => true
  | .error _ => false

/-- The size the index currently charges for a path. -/
def sizeAt (s : CState) (p : Path) : Int :=
  match findEntry s.files p with
  | some e => e.size
  | none => 0

theorem detachM_curr (s : CState) (p : Path) :
    (detachM s p).currSize = s.currSize - sizeAt s p := by
  unfold detachM removeFromCacheM sizeAt getCacheFileM
  cases hf : findEntry s.files p with
  | none => simp
  | some e => simp

theorem closeStep_ok_open {s0 s2 : CState} {i : Nat} {h : HState}
    (hh : s0.handles[i]? = some h) (hrun : closeStep s0 i = .ok s2) : h.closed = false := by
  unfold closeStep at hrun
  dsimp only at hrun
  split at hrun
  · exact absurd hrun (by simp)
  · rename_i h9 hh9
    rw [hh] at hh9
    obtain rfl := Option.some.inj hh9
    split at hrun
    · exact absurd hrun (by simp)
    · rename_i hcl
      simpa using hcl

end Kafero

namespace Kafero

/-- Claim C1, as stated, is false on the code: with capacity 3, creating
a single file, writing 5 bytes through the handle and closing it leaves
currSize = 5 > cacheSize = 3 although every returned handle has been
closed (the eviction loop stops as soon as currSize reaches 0, so a file
larger than the capacity is admitted whole).  The accounting identity
currSize = Σ sizes does hold here; the capacity conjunct is violated. -/
theorem c1_counterexample :
    (runTrace (initState 3 0) [.create [1], .write 0 [7, 7, 7, 7, 7], .close 0]).map
      (fun s => (s.currSize, s.cacheSize, decide (s.currSize ≤ s.cacheSize),
        decide (s.currSize = sumSizes s.files),
        decide (∀ h ∈ s.handles, h.closed = true))) =
    .ok (5, 3, false, true, true) := by rfl

end Kafero

namespace Kafero

/-- Claim C1 (amended): for every sequence of create/open/openFile/write/
close/remove operations in which at most one handle is open per path at a
time (and no rename) and that runs without error from a fresh overlay,
the accounting identity currSize = Σ entry sizes holds after the
sequence; and any close of a handle carrying an entry leaves
currSize ≤ max(cacheSize, admitted size), where the admitted size is the
size of the entry the close re-admits.  The unrestricted capacity bound
currSize ≤ cacheSize of the original claim fails exactly when the
admitted file is larger than the capacity (including cacheSize = 0). -/
theorem c1_amended (cacheSize cacheTime : Int) (ops : List Op) (s1 : CState)
    (hal : allowedTraceB (initState cacheSize cacheTime) ops = true)
    (hrun : runTrace (initState cacheSize cacheTime) ops = .ok s1) :
    s1.currSize = sumSizes s1.files ∧
    (∀ (i : Nat) (s2 : CState) (h : HState) (e : CacheEntry),
      s1.handles[i]? = some h → h.info = some e →
      step s1 (.close i) = .ok s2 →
      ∃ f : CacheEntry, findEntry s2.files h.path = some f ∧
        s2.currSize ≤ max s1.cacheSize f.size ∧
        s2.currSize = sumSizes s2.files) := by
  have inv : CInv s1 :=
    runTrace_inv ops (initState cacheSize cacheTime) (initState_inv cacheSize cacheTime)
      hal s1 hrun
  refine ⟨inv.sum, ?_⟩
  intro i s2 h e hh hinfo hstep
  have hstep2 : closeStep s1 i = .ok s2 := hstep
  have hclf : h.closed = false := closeStep_ok_open hh hstep2
  have hmem : h ∈ s1.handles := List.getElem?_mem hh
  have hepath : e.path = h.path := inv.hInfo h hmem hclf e hinfo
  have hfresh : e.path ∉ pathsOf s1.files :=
    fun hmem2 => inv.hOpen h hmem hclf (hepath ▸ hmem2)
  obtain ⟨sz, f1, f2, f3, f4, f5, f6⟩ :=
    closeStep_readmit hh hinfo inv.sum inv.nonneg inv.nodup hfresh hstep2
  refine ⟨{ path := e.path, size := sz, lastAccessTime := s1.now + 1 }, ?_, f3, f4⟩
  rw [← hepath]
  exact f1

/-- Witness for the amended claim at a concrete trace. -/
theorem c1_amended_witness :
    allowedTraceB (initState 10 0) [.create [1], .write 0 [7, 7], .close 0] = true ∧
    (runTrace (initState 10 0) [.create [1], .write 0 [7, 7], .close 0]).map
      (fun s => decide (s.currSize = sumSizes s.files)) = .ok true := by
  refine ⟨by decide, ?_⟩
  cases hrr : runTrace (initState 10 0) [.create [1], .write 0 [7, 7], .close 0] with
  | error e =>
    have hok : exceptOk
        (runTrace (initState 10 0) [.create [1], .write 0 [7, 7], .close 0]) = true := by rfl
    rw [hrr] at hok
    exact absurd hok (by simp [exceptOk])
  | ok s1 =>
    simp only [Except.map, decide_eq_true_eq, Except.ok.injEq]
    exact (c1_amended 10 0 [.create [1], .write 0 [7, 7], .close 0] s1 (by decide) hrr).1

end Kafero

namespace Kafero

/-- Claim C4, as stated, is false on the code: with a zero TTL, a path
whose base copy is strictly newer (base mtime 5 > cache mtime 0) is
classified HIT, not STALE — cacheStatus returns cacheHit immediately
whenever cacheTime == 0. -/
theorem c4_counterexample :
    (cacheStatusM
      { base := { dir := [([1], 0)], store := [(0, { data := [7], mtime := 5 })], nextId := 1 }
      , cache := { dir := [([1], 0)], store := [(0, { data := [7], mtime := 0 })], nextId := 1 }
      , cacheSize := 100, cacheTime := 0, currSize := 1
      , files := [{ path := [1], size := 1, lastAccessTime := 0 }]
      , now := 10, handles := [] } [1]).1 = CacheState.cacheHit ∧
    CacheState.cacheHit ≠ CacheState.cacheStale := by decide

/-- Claim C4 (amended): cacheStatus classifies a path STALE exactly when
the cache has it, the TTL is nonzero and has elapsed, the base has it,
and the base mtime is strictly newer than the cache mtime; with a zero
TTL every cached path is classified HIT regardless of the base mtime. -/
theorem c4_amended (s : CState) (name : Path) :
    ((cacheStatusM s name).1 = CacheState.cacheStale ↔
      ∃ lfi bfi : Inode, tierStat s.cache name = some lfi ∧
        tierStat s.base name = some bfi ∧ s.cacheTime ≠ 0 ∧
        lfi.mtime + s.cacheTime < s.now ∧ lfi.mtime < bfi.mtime) ∧
    (s.cacheTime = 0 → (tierStat s.cache name).isSome = true →
      (cacheStatusM s name).1 = CacheState.cacheHit) := by
  unfold cacheStatusM
  cases hls : tierStat s.cache name with
  | none =>
    refine ⟨by simp, ?_⟩
    intro _ hsome
    simp at hsome
  | some lfi =>
    dsimp only
    by_cases hct : s.cacheTime = 0
    · rw [if_pos hct]
      exact ⟨by simp [hct], fun _ _ => rfl⟩
    · rw [if_neg hct]
      refine ⟨?_, fun hc => absurd hc hct⟩
      by_cases httl : lfi.mtime + s.cacheTime < s.now
      · rw [if_pos httl]
        cases hbs : tierStat s.base name with
        | none => simp [hbs]
        | some bfi =>
          dsimp only
          by_cases hst : lfi.mtime < bfi.mtime
          · rw [if_pos hst]
            simp only [true_iff]
            exact ⟨lfi, bfi, rfl, rfl, hct, httl, hst⟩
          · rw [if_neg hst]
            constructor
            · intro hcon
              cases hcon
            · rintro ⟨lfi2, bfi2, hl2, hb2, _, _, hst2⟩
              obtain rfl := Option.some.inj hl2
              obtain rfl := Option.some.inj hb2
              exact absurd hst2 hst
      · rw [if_neg httl]
        constructor
        · intro hcon
          cases hcon
        · rintro ⟨lfi2, bfi2, hl2, hb2, _, httl2, _⟩
          obtain rfl := Option.some.inj hl2
          exact absurd httl2 httl

/-- Witness for the amended claim: at a state with zero TTL and the path
cached, cacheStatus answers HIT. -/
theorem c4_amended_witness :
    (cacheStatusM
      { base := { dir := [([1], 0)], store := [(0, { data := [7], mtime := 5 })], nextId := 1 }
      , cache := { dir := [([1], 0)], store := [(0, { data := [7], mtime := 0 })], nextId := 1 }
      , cacheSize := 100, cacheTime := 0, currSize := 1
      , files := [{ path := [1], size := 1, lastAccessTime := 0 }]
      , now := 10, handles := [] } [1]).1 = CacheState.cacheHit :=
  (c4_amended
    { base := { dir := [([1], 0)], store := [(0, { data := [7], mtime := 5 })], nextId := 1 }
    , cache := { dir := [([1], 0)], store := [(0, { data := [7], mtime := 0 })], nextId := 1 }
    , cacheSize := 100, cacheTime := 0, currSize := 1
    , files := [{ path := [1], size := 1, lastAccessTime := 0 }]
    , now := 10, handles := [] } [1]).2 rfl (by decide)

/-- Claim C8, as stated, is false on the code: when Sync fails, Close
returns at once and neither underlying file's Close is attempted. -/
theorem c8_counterexample :
    closeSeq { syncFails := true, statFails := false, baseCloseFails := false
             , cacheCloseFails := false } =
      { baseCloseAttempted := false, cacheCloseAttempted := false
      , result := some CloseErr.syncErr } := by decide

/-- Claim C8 (amended): Close returns the first error of the sequence
sync, base-stat, base-close, cache-close; the base close is attempted
only when sync and stat succeeded, and the cache close only when the
base close also succeeded, so an early failure leaks the remaining
descriptors. -/
theorem c8_amended (o : CloseOutcome) :
    (closeSeq o).result =
      (if o.syncFails then some CloseErr.syncErr
       else if o.statFails then some CloseErr.statErr
       else if o.baseCloseFails then some CloseErr.baseCloseErr
       else if o.cacheCloseFails then some CloseErr.cacheCloseErr
       else none) ∧
    (closeSeq o).baseCloseAttempted = (!o.syncFails && !o.statFails) ∧
    (closeSeq o).cacheCloseAttempted = (!o.syncFails && !o.statFails && !o.baseCloseFails) := by
  obtain ⟨a, b, c, d⟩ := o
  cases a <;> cases b <;> cases c <;> cases d <;> decide

end Kafero

namespace Zstfs

open Kafero

/-- Claim C9: the code evaluated at the failing input.  Fs.OpenFile and
Fs.Create in src/zstfs/fs.go never store the open flag on the returned
File, so its flag field is the Go zero value 0 (= O_RDONLY) and Write
refuses every handle they return with EPERM — even one opened with
O_WRONLY|O_CREATE and never read from. -/
theorem c9_zstfs_write_eperm (flag : Nat) (b : Bytes) :
    zstWrite (zstOpenFile flag) b = .error Err.eperm ∧
    zstWrite zstCreate b = .error Err.eperm ∧
    zstWrite (zstOpenFile (O_WRONLY ||| O_CREATE)) [7] = .error Err.eperm := by
  refine ⟨?_, ?_, ?_⟩ <;>
    simp [zstWrite, zstOpenFile, zstCreate, O_WRONLY, O_RDWR]

end Zstfs

namespace Kafero

theorem flookup_eq_none {d : List (Path × Nat)} {p : Path} :
    flookup d p = none ↔ p ∉ d.map Prod.fst := by
  induction d with
  | nil => simp [flookup]
  | cons pr rest ih =>
    obtain ⟨q, i⟩ := pr
    by_cases hq : q = p
    · subst hq
      simp [flookup]
    · rw [flookup, if_neg hq]
      simp only [List.map_cons, List.mem_cons, not_or]
      exact ⟨fun h => ⟨fun hh => hq hh.symm, ih.mp h⟩, fun h => ih.mpr h.2⟩

theorem mem_map_fst_ferase {d : List (Path × Nat)} {p q : Path}
    (h : q ∈ (ferase d p).map Prod.fst) : q ∈ d.map Prod.fst := by
  induction d with
  | nil => simpa [ferase] using h
  | cons pr rest ih =>
    obtain ⟨x, i⟩ := pr
    by_cases hx : x = p
    · rw [ferase, if_pos hx] at h
      simp only [List.map_cons, List.mem_cons]
      exact Or.inr h
    · rw [ferase, if_neg hx] at h
      simp only [List.map_cons, List.mem_cons] at h ⊢
      rcases h with h | h
      · exact Or.inl h
      · exact Or.inr (ih h)

theorem flookup_ferase_self {d : List (Path × Nat)} {p : Path}
    (hnd : (d.map Prod.fst).Nodup) : flookup (ferase d p) p = none := by
  induction d with
  | nil => rfl
  | cons pr rest ih =>
    obtain ⟨q, i⟩ := pr
    simp only [List.map_cons, List.nodup_cons] at hnd
    by_cases hq : q = p
    · rw [ferase, if_pos hq]
      subst hq
      exact flookup_eq_none.mpr hnd.1
    · rw [ferase, if_neg hq, flookup, if_neg hq]
      exact ih hnd.2

/-- Open detaches: after a successful Open, the path is absent from the
index and its previously charged size has been subtracted. -/
theorem openROStep_detach {s0 s2 : CState} {name : Path}
    (hsum : s0.currSize = sumSizes s0.files)
    (hnd : (pathsOf s0.files).Nodup)
    (hrun : openROStep s0 name = .ok s2) :
    name ∉ pathsOf s2.files ∧ s2.currSize = s0.currSize - sizeAt s0 name := by
  unfold openROStep at hrun
  dsimp only at hrun
  obtain ⟨d1, d2, d3, d4, d5, d6, d7, d8, d9, d10⟩ :=
    detachM_spec { s0 with now := s0.now + 1 } name hsum hnd
  have hcur := detachM_curr { s0 with now := s0.now + 1 } name
  split at hrun
  · obtain ⟨cid, rfl⟩ := openROBottom_spec hrun
    exact ⟨d4, hcur⟩
  · obtain ⟨cid, rfl⟩ := openROBottom_spec hrun
    exact ⟨d4, hcur⟩
  · split at hrun
    · exact absurd hrun (by simp)
    · split at hrun
      · exact absurd hrun (by simp)
      · rename_i infoN hcp
        obtain ⟨c1, c2, c3, c4, c5, c6, c7⟩ :=
          copyToCacheM_fields (detachM { s0 with now := s0.now + 1 } name) name .success
        obtain ⟨cid, rfl⟩ := openROBottom_spec hrun
        constructor
        · rw [c1]; exact d4
        · rw [c2]; exact hcur
  · split at hrun
    · exact absurd hrun (by simp)
    · rename_i infoN hcp
      obtain ⟨c1, c2, c3, c4, c5, c6, c7⟩ :=
        copyToCacheM_fields (detachM { s0 with now := s0.now + 1 } name) name .success
      obtain ⟨cid, rfl⟩ := openROBottom_spec hrun
      constructor
      · rw [c1]; exact d4
      · rw [c2]; exact hcur

/-- OpenFile detaches, in the same way. -/
theorem openFStep_detach {s0 s2 : CState} {name : Path} {flag : Nat}
    (hsum : s0.currSize = sumSizes s0.files)
    (hnd : (pathsOf s0.files).Nodup)
    (hrun : openFStep s0 name flag = .ok s2) :
    name ∉ pathsOf s2.files ∧ s2.currSize = s0.currSize - sizeAt s0 name := by
  unfold openFStep at hrun
  dsimp only at hrun
  obtain ⟨d1, d2, d3, d4, d5, d6, d7, d8, d9, d10⟩ :=
    detachM_spec { s0 with now := s0.now + 1 } name hsum hnd
  have hcur := detachM_curr { s0 with now := s0.now + 1 } name
  split at hrun
  · exact absurd hrun (by simp)
  · rename_i s2x info1 hAC
    split at hrun
    · exact absurd hrun (by simp)
    · rename_i bt bid bpos hbt
      split at hrun
      · exact absurd hrun (by simp)
      · rename_i ct cid cpos hct
        obtain rfl := Except.ok.inj hrun
        have hfiles : s2x.files = (detachM { s0 with now := s0.now + 1 } name).files ∧
            s2x.currSize = (detachM { s0 with now := s0.now + 1 } name).currSize := by
          split at hAC
          · obtain ⟨rfl, rfl⟩ := Prod.mk.injEq .. ▸ (Except.ok.inj hAC)
            exact ⟨rfl, rfl⟩
          · obtain ⟨rfl, rfl⟩ := Prod.mk.injEq .. ▸ (Except.ok.inj hAC)
            exact ⟨rfl, rfl⟩
          · split at hAC
            · split at hAC
              · exact absurd hAC (by simp)
              · rename_i infoN hcp
                obtain ⟨rfl, rfl⟩ := Prod.mk.injEq .. ▸ (Except.ok.inj hAC)
                obtain ⟨c1, c2, c3, c4, c5, c6, c7⟩ :=
                  copyToCacheM_fields (detachM { s0 with now := s0.now + 1 } name) name .success
                exact ⟨c1, c2⟩
            · obtain ⟨rfl, rfl⟩ := Prod.mk.injEq .. ▸ (Except.ok.inj hAC)
              exact ⟨rfl, rfl⟩
        constructor
        · show name ∉ pathsOf s2x.files
          rw [hfiles.1]
          exact d4
        · show s2x.currSize = s0.currSize - sizeAt s0 name
          rw [hfiles.2]
          exact hcur

/-- Create detaches as well: the path is forced out of the index and the
fresh size-0 entry rides on the handle. -/
theorem createStep_detach {s0 s2 : CState} {name : Path}
    (hsum : s0.currSize = sumSizes s0.files)
    (hnd : (pathsOf s0.files).Nodup)
    (hrun : createStep s0 name = .ok s2) :
    name ∉ pathsOf s2.files ∧ s2.currSize = s0.currSize - sizeAt s0 name := by
  unfold createStep at hrun
  dsimp only at hrun
  obtain rfl := Except.ok.inj hrun
  obtain ⟨r1, r2, r3, r4, r5, r6, r7, r8, r9, r10⟩ :=
    removeFromCacheM_spec
      { s0 with
        now := s0.now + 1,
        base := (tierCreate s0.base name (s0.now + 1)).1,
        cache := (tierCreate s0.cache name (s0.now + 1)).1 }
      name hsum hnd
  refine ⟨r4, ?_⟩
  show (removeFromCacheM
      { s0 with
        now := s0.now + 1,
        base := (tierCreate s0.base name (s0.now + 1)).1,
        cache := (tierCreate s0.cache name (s0.now + 1)).1 } name).currSize =
    s0.currSize - sizeAt s0 name
  unfold removeFromCacheM sizeAt
  cases hf : findEntry s0.files name with
  | none => simp [hf]
  | some e => simp [hf]

theorem runTrace_append (s : CState) (ops1 ops2 : List Op) :
    runTrace s (ops1 ++ ops2) =
      match runTrace s ops1 with
      | .ok s1 => runTrace s1 ops2
      | .error e => .error e := by
  induction ops1 generalizing s with
  | nil => rw [List.nil_append, runTrace]
  | cons op rest ih =>
    rw [List.cons_append, runTrace, runTrace]
    cases step s op with
    | error e => rfl
    | ok s1 => exact ih s1

end Kafero

namespace Kafero

/-- Remove of a path whose entry is detached (held by an open handle):
both tiers drop the path, the index and currSize are untouched, and the
handles are untouched. -/
theorem removeStep_detached {s0 s1 : CState} {p : Path}
    (hfresh : findEntry s0.files p = none)
    (hndc : (s0.cache.dir.map Prod.fst).Nodup)
    (hndb : (s0.base.dir.map Prod.fst).Nodup)
    (hcache : tierExists s0.cache p = true)
    (hrm : removeStep s0 p = .ok s1) :
    s1.files = s0.files ∧ s1.currSize = s0.currSize ∧ s1.handles = s0.handles ∧
    s1.now = s0.now + 1 ∧ s1.base.store = s0.base.store ∧
    s1.cache.store = s0.cache.store ∧ s1.cacheSize = s0.cacheSize ∧
    s1.cacheTime = s0.cacheTime ∧
    tierExists s1.cache p = false ∧ tierExists s1.base p = false := by
  unfold removeStep at hrm
  dsimp only at hrm
  rw [if_pos hcache] at hrm
  split at hrm
  · exact absurd hrm (by simp)
  · rename_i ct hct
    unfold tierRemove at hct
    rw [if_pos (by simpa [tierExists] using hcache)] at hct
    obtain rfl := Option.some.inj hct
    unfold removeFromCacheM at hrm
    dsimp only at hrm
    rw [hfresh] at hrm
    dsimp only at hrm
    split at hrm
    · exact absurd hrm (by simp)
    · rename_i bt hbt
      unfold tierRemove at hbt
      split at hbt
      · obtain rfl := Option.some.inj hbt
        obtain rfl := Except.ok.inj hrm
        refine ⟨rfl, rfl, rfl, rfl, rfl, rfl, rfl, rfl, ?_, ?_⟩
        · simp only [tierExists]
          rw [flookup_ferase_self hndc]
          rfl
        · simp only [tierExists]
          rw [flookup_ferase_self hndb]
          rfl
      · cases hbt

end Kafero

namespace Kafero

/-- Claim C2, as stated, is false on the code: open the same path twice
(the second Open finds the entry already detached by the first, so its
handle carries no entry), then close the second handle — nothing is
re-admitted to the index, which stays empty, with no entry for the path
at any size or timestamp. -/
theorem c2_counterexample :
    (runTrace (initState 100 0)
      [.create [1], .close 0, .openRO [1], .openRO [1], .close 2]).map
      (fun s => (decide (findEntry s.files [1] = none), s.currSize,
        (s.handles.map (fun h => h.closed)))) =
    .ok (true, 0, [true, false, true]) := by rfl

/-- Claim C2 (amended): Open, OpenFile and Create all detach — after
success the path has no index entry and its previously charged size has
been subtracted from currSize; a close whose handle carries a detached
entry re-admits it with the final base size and the close timestamp;
but a handle that carries no entry (its path was already detached by an
earlier open) re-admits nothing on close. -/
theorem c2_amended :
    (∀ (s0 s2 : CState) (name : Path), s0.currSize = sumSizes s0.files →
      (pathsOf s0.files).Nodup → openROStep s0 name = .ok s2 →
      name ∉ pathsOf s2.files ∧ s2.currSize = s0.currSize - sizeAt s0 name) ∧
    (∀ (s0 s2 : CState) (name : Path) (flag : Nat), s0.currSize = sumSizes s0.files →
      (pathsOf s0.files).Nodup → openFStep s0 name flag = .ok s2 →
      name ∉ pathsOf s2.files ∧ s2.currSize = s0.currSize - sizeAt s0 name) ∧
    (∀ (s0 s2 : CState) (name : Path), s0.currSize = sumSizes s0.files →
      (pathsOf s0.files).Nodup → createStep s0 name = .ok s2 →
      name ∉ pathsOf s2.files ∧ s2.currSize = s0.currSize - sizeAt s0 name) ∧
    (∀ (s0 s2 : CState) (i : Nat) (h : HState) (e : CacheEntry), CInv s0 →
      s0.handles[i]? = some h → h.info = some e → closeStep s0 i = .ok s2 →
      ∃ sz : Int, findEntry s2.files h.path =
          some { path := h.path, size := sz, lastAccessTime := s0.now + 1 } ∧
        0 ≤ sz ∧ s2.currSize = sumSizes s2.files ∧
        (h.flag = 0 → ∀ bid bIno, h.baseId = some bid →
          slookup s0.base.store bid = some bIno → sz = Int.ofNat bIno.data.length) ∧
        (h.flag ≠ 0 → ∀ cIno, slookup s0.cache.store h.cacheId = some cIno →
          sz = Int.ofNat cIno.data.length)) ∧
    (∀ (s0 s2 : CState) (i : Nat) (h : HState), s0.handles[i]? = some h →
      h.info = none → closeStep s0 i = .ok s2 →
      s2.files = s0.files ∧ s2.currSize = s0.currSize) := by
  refine ⟨?_, ?_, ?_, ?_, ?_⟩
  · intro s0 s2 name hsum hnd hrun
    exact openROStep_detach hsum hnd hrun
  · intro s0 s2 name flag hsum hnd hrun
    exact openFStep_detach hsum hnd hrun
  · intro s0 s2 name hsum hnd hrun
    exact createStep_detach hsum hnd hrun
  · intro s0 s2 i h e inv hh hinfo hrun
    have hclf : h.closed = false := closeStep_ok_open hh hrun
    have hmem : h ∈ s0.handles := List.getElem?_mem hh
    have hepath : e.path = h.path := inv.hInfo h hmem hclf e hinfo
    have hfresh : e.path ∉ pathsOf s0.files :=
      fun hm => inv.hOpen h hmem hclf (hepath ▸ hm)
    obtain ⟨sz, f1, f2, f3, f4, f5, f6⟩ :=
      closeStep_readmit hh hinfo inv.sum inv.nonneg inv.nodup hfresh hrun
    refine ⟨sz, ?_, f2, f4, f5, f6⟩
    rw [← hepath]
    exact f1
  · intro s0 s2 i h hh hinfo hrun
    exact closeStep_noinfo hh hinfo hrun

/-- Witness for the amended claim: the detach half at a concrete state
(the overlay after creating and closing one 2-byte file), where the open
subtracts the charged 2 bytes and empties the index; and the re-admission
half at the state holding a still-open 2-byte writing handle, whose close
re-admits the entry charged with the final 2-byte size and stamped with
the close time. -/
theorem c2_amended_witness :
    ((runTrace (initState 100 0) [.create [1], .write 0 [7, 7], .close 0]).map
      (fun s => (openROStep s [1]).map
        (fun s2 => decide ([1] ∉ pathsOf s2.files ∧
          s2.currSize = s.currSize - sizeAt s [1]))) =
    .ok (.ok true)) ∧
    ((runTrace (initState 100 0) [.create [1], .write 0 [7, 7]]).map
      (fun s => (closeStep s 0).map
        (fun s2 => decide (findEntry s2.files [1] =
          some { path := [1], size := 2, lastAccessTime := s.now + 1 }))) =
    .ok (.ok true)) := by
  constructor
  · cases hrr : runTrace (initState 100 0) [.create [1], .write 0 [7, 7], .close 0] with
    | error e =>
      have hok : exceptOk
          (runTrace (initState 100 0) [.create [1], .write 0 [7, 7], .close 0]) = true := by
        rfl
      rw [hrr] at hok
      exact absurd hok (by simp [exceptOk])
    | ok s =>
      have inv : CInv s :=
        runTrace_inv [.create [1], .write 0 [7, 7], .close 0] (initState 100 0)
          (initState_inv 100 0) (by decide) s hrr
      have hok3 : exceptOk (runTrace (initState 100 0)
          ([.create [1], .write 0 [7, 7], .close 0] ++ [.openRO [1]])) = true := by rfl
      rw [runTrace_append, hrr] at hok3
      simp only [Except.map]
      cases hro : openROStep s [1] with
      | error e2 =>
        simp only [runTrace, step, hro] at hok3
        exact absurd hok3 (by simp [exceptOk])
      | ok s2 =>
        simp only [Except.ok.injEq]
        rw [decide_eq_true_iff]
        exact (c2_amended.1) s s2 [1] inv.sum inv.nodup hro
  · cases hrr : runTrace (initState 100 0) [.create [1], .write 0 [7, 7]] with
    | error e =>
      have hok : exceptOk
          (runTrace (initState 100 0) [.create [1], .write 0 [7, 7]]) = true := by rfl
      rw [hrr] at hok
      exact absurd hok (by simp [exceptOk])
    | ok s =>
      have inv : CInv s :=
        runTrace_inv [.create [1], .write 0 [7, 7]] (initState 100 0)
          (initState_inv 100 0) (by decide) s hrr
      have hfacts : (runTrace (initState 100 0) [.create [1], .write 0 [7, 7]]).map
          (fun t => ((t.handles[0]?).map
              (fun hd => (hd.path, hd.info.isSome, hd.flag, hd.cacheId)),
            (slookup t.cache.store 0).map (fun ino => ino.data))) =
          .ok (some ([1], true, 578, 0), some [7, 7]) := by rfl
      rw [hrr] at hfacts
      simp only [Except.map, Except.ok.injEq, Prod.mk.injEq] at hfacts
      obtain ⟨hf1, hf2⟩ := hfacts
      cases hhh : s.handles[0]? with
      | none =>
        rw [hhh] at hf1
        simp at hf1
      | some h =>
        rw [hhh] at hf1
        simp only [Option.map_some', Option.some.injEq, Prod.mk.injEq] at hf1
        obtain ⟨hpath0, hinfos, hflag, hcid⟩ := hf1
        cases hinfo0 : h.info with
        | none =>
          rw [hinfo0] at hinfos
          simp at hinfos
        | some e =>
          cases hcls : closeStep s 0 with
          | error e2 =>
            have hbB : exceptOk ((runTrace (initState 100 0)
                [.create [1], .write 0 [7, 7]]).bind (fun t => closeStep t 0)) = true := by
              rfl
            rw [hrr] at hbB
            simp only [Except.bind] at hbB
            rw [hcls] at hbB
            exact absurd hbB (by simp [exceptOk])
          | ok s2 =>
            obtain ⟨sz, g1, g2, g3, g4, g5⟩ :=
              (c2_amended.2.2.2.1) s s2 0 h e inv hhh hinfo0 hcls
            rw [← hcid] at hf2
            cases hsl : slookup s.cache.store h.cacheId with
            | none =>
              rw [hsl] at hf2
              simp at hf2
            | some cIno =>
              rw [hsl] at hf2
              simp only [Option.map_some', Option.some.injEq] at hf2
              have hfne : h.flag ≠ 0 := by
                rw [hflag]
                decide
              have hsz : sz = Int.ofNat cIno.data.length := g5 hfne cIno hsl
              rw [hf2] at hsz
              simp only [Except.map, Except.ok.injEq]
              rw [hcls]
              dsimp only
              simp only [Except.ok.injEq]
              rw [decide_eq_true_iff]
              rw [hpath0] at g1
              rw [g1, hsz]
              rfl

/-- Claim C10: removing a path while a handle on it is open deletes the
file from both tiers and leaves the index unchanged, and the later close
of that handle re-admits the path's entry with the handle's final size
and the close timestamp, so the entry and its size contribution
reappear. -/
theorem c10_remove_open_close {s0 s1 s2 : CState} {p : Path} {i : Nat}
    {h : HState} {e : CacheEntry}
    (inv : CInv s0)
    (hh : s0.handles[i]? = some h) (hcl : h.closed = false) (hpath : h.path = p)
    (hinfo : h.info = some e)
    (hndc : (s0.cache.dir.map Prod.fst).Nodup)
    (hndb : (s0.base.dir.map Prod.fst).Nodup)
    (hcache : tierExists s0.cache p = true)
    (hrm : removeStep s0 p = .ok s1)
    (hcls : closeStep s1 i = .ok s2) :
    s1.files = s0.files ∧ s1.currSize = s0.currSize ∧
    tierExists s1.cache p = false ∧ tierExists s1.base p = false ∧
    ∃ sz : Int, findEntry s2.files p =
        some { path := p, size := sz, lastAccessTime := s1.now + 1 } ∧
      0 ≤ sz ∧ s2.currSize = sumSizes s2.files ∧
      s2.currSize ≤ max s1.cacheSize sz ∧
      (h.flag = 0 → ∀ bid bIno, h.baseId = some bid →
        slookup s0.base.store bid = some bIno → sz = Int.ofNat bIno.data.length) ∧
      (h.flag ≠ 0 → ∀ cIno, slookup s0.cache.store h.cacheId = some cIno →
        sz = Int.ofNat cIno.data.length) := by
  have hmem : h ∈ s0.handles := List.getElem?_mem hh
  have hepath : e.path = h.path := inv.hInfo h hmem hcl e hinfo
  have hfresh0 : e.path ∉ pathsOf s0.files :=
    fun hm => inv.hOpen h hmem hcl (hepath ▸ hm)
  have hfind0 : findEntry s0.files p = none := by
    rw [findEntry_eq_none]
    rw [hpath] at hepath
    exact hepath ▸ hfresh0
  obtain ⟨m1, m2, m3, m4, m5, m6, m7, m8, m9, m10⟩ :=
    removeStep_detached hfind0 hndc hndb hcache hrm
  have hh1 : s1.handles[i]? = some h := by rw [m3]; exact hh
  have hfresh1 : e.path ∉ pathsOf s1.files := by rw [m1]; exact hfresh0
  obtain ⟨sz, f1, f2, f3, f4, f5, f6⟩ :=
    closeStep_readmit hh1 hinfo (by rw [m2, m1]; exact inv.sum)
      (by rw [m1]; exact inv.nonneg) (by rw [m1]; exact inv.nodup) hfresh1 hcls
  refine ⟨m1, m2, m9, m10, sz, ?_, f2, f4, f3, ?_, ?_⟩
  · rw [hpath] at hepath
    rw [← hepath]
    exact f1
  · intro hf bid bIno hb hsl
    exact f5 hf bid bIno hb (by rw [m5]; exact hsl)
  · intro hf cIno hsl
    exact f6 hf cIno (by rw [m6]; exact hsl)

end Kafero

namespace Kafero

/-- Witness for claim C10: create a 3-byte file, close it, re-open it
(pinning the entry), remove the path while the handle is open, and close
the handle — the removal left the index unchanged and emptied both
tiers, and the close brought the path's entry back charged with the
handle's final 3-byte size. -/
theorem c10_witness :
    (runTrace (initState 100 0)
      [.create [1], .write 0 [7, 7, 7], .close 0, .openRO [1]]).bind
      (fun s1 => (removeStep s1 [1]).bind (fun sA => (closeStep sA 1).map
        (fun s2 => decide (sA.files = s1.files ∧
          tierExists sA.cache [1] = false ∧ tierExists sA.base [1] = false ∧
          findEntry s2.files [1] =
            some { path := [1], size := 3, lastAccessTime := sA.now + 1 })))) =
    .ok true := by
  cases hrr : runTrace (initState 100 0)
      [.create [1], .write 0 [7, 7, 7], .close 0, .openRO [1]] with
  | error e =>
    have hok : exceptOk (runTrace (initState 100 0)
        [.create [1], .write 0 [7, 7, 7], .close 0, .openRO [1]]) = true := by rfl
    rw [hrr] at hok
    exact absurd hok (by simp [exceptOk])
  | ok s1 =>
    have hfacts : (runTrace (initState 100 0)
        [.create [1], .write 0 [7, 7, 7], .close 0, .openRO [1]]).map
        (fun s => ((s.handles[1]?).map
            (fun hd => (hd.closed, hd.path, hd.info.isSome, hd.flag, hd.baseId)),
          (slookup s.base.store 0).map (fun ino => ino.data),
          decide ((s.cache.dir.map Prod.fst).Nodup ∧ (s.base.dir.map Prod.fst).Nodup ∧
            tierExists s.cache [1] = true))) =
        .ok (some (false, [1], true, 0, some 0), some [7, 7, 7], true) := by rfl
    rw [hrr] at hfacts
    simp only [Except.map, Except.ok.injEq, Prod.mk.injEq] at hfacts
    obtain ⟨hf1, hfb, hf2⟩ := hfacts
    have hside := of_decide_eq_true hf2
    obtain ⟨hndc, hndb, hcache⟩ := hside
    cases hhh : s1.handles[1]? with
    | none =>
      rw [hhh] at hf1
      simp at hf1
    | some h =>
      rw [hhh] at hf1
      simp only [Option.map_some', Option.some.injEq, Prod.mk.injEq] at hf1
      obtain ⟨hcl2, hpath2, hinfos, hflag, hbid⟩ := hf1
      cases hinfo2 : h.info with
      | none =>
        rw [hinfo2] at hinfos
        simp at hinfos
      | some e =>
        have inv1 : CInv s1 :=
          runTrace_inv [.create [1], .write 0 [7, 7, 7], .close 0, .openRO [1]]
            (initState 100 0) (initState_inv 100 0) (by decide) s1 hrr
        cases hrm : removeStep s1 [1] with
        | error e1 =>
          have hbA : exceptOk ((runTrace (initState 100 0)
              [.create [1], .write 0 [7, 7, 7], .close 0, .openRO [1]]).bind
              (fun s => removeStep s [1])) = true := by rfl
          rw [hrr] at hbA
          simp only [Except.bind] at hbA
          rw [hrm] at hbA
          exact absurd hbA (by simp [exceptOk])
        | ok sA =>
          cases hcls : closeStep sA 1 with
          | error e2 =>
            have hbB : exceptOk ((runTrace (initState 100 0)
                [.create [1], .write 0 [7, 7, 7], .close 0, .openRO [1]]).bind
                (fun s => (removeStep s [1]).bind (fun sa => closeStep sa 1))) = true := by
              rfl
            rw [hrr] at hbB
            simp only [Except.bind] at hbB
            rw [hrm] at hbB
            simp only [Except.bind] at hbB
            rw [hcls] at hbB
            exact absurd hbB (by simp [exceptOk])
          | ok s2 =>
            obtain ⟨m1, m2, m9, m10, sz, g1, g2, g3, g4, g5, g6⟩ :=
              c10_remove_open_close inv1 hhh hcl2 hpath2 hinfo2 hndc hndb hcache hrm hcls
            cases hsl : slookup s1.base.store 0 with
            | none =>
              rw [hsl] at hfb
              simp at hfb
            | some bIno =>
              rw [hsl] at hfb
              simp only [Option.map_some', Option.some.injEq] at hfb
              have hsz : sz = Int.ofNat bIno.data.length := g5 hflag 0 bIno hbid hsl
              rw [hfb] at hsz
              simp only [Except.bind, hrm, hcls, Except.map, Except.ok.injEq]
              rw [decide_eq_true_iff]
              refine ⟨m1, m9, m10, ?_⟩
              rw [g1, hsz]
              rfl

end Kafero

namespace Kafero

theorem flookup_ferase_ne {d : List (Path × Nat)} {p q : Path}
    (h : q ≠ p) : flookup (ferase d q) p = flookup d p := by
  induction d with
  | nil => rfl
  | cons pr rest ih =>
    obtain ⟨x, i⟩ := pr
    by_cases hx : x = q
    · rw [ferase, if_pos hx, flookup, if_neg (by rw [hx]; exact h)]
    · rw [ferase, if_neg hx, flookup, flookup]
      by_cases hxp : x = p
      · rw [if_pos hxp, if_pos hxp]
      · rw [if_neg hxp, if_neg hxp]
        exact ih

theorem flookup_fset_self (d : List (Path × Nat)) (p : Path) (i : Nat) :
    flookup (fset d p i) p = some i := by
  induction d with
  | nil => simp [fset, flookup]
  | cons pr rest ih =>
    obtain ⟨x, j⟩ := pr
    by_cases hx : x = p
    · rw [fset, if_pos hx, flookup, if_pos rfl]
    · rw [fset, if_neg hx, flookup, if_neg hx]
      exact ih

theorem tierRemoveD_preserve {t : Tier} {q p : Path} (h : q ≠ p) :
    flookup (tierRemoveD t q).dir p = flookup t.dir p ∧
    (tierRemoveD t q).store = t.store := by
  unfold tierRemoveD tierRemove
  split
  · rename_i t2 ht2
    split at ht2
    · obtain rfl := Option.some.inj ht2
      exact ⟨flookup_ferase_ne h, rfl⟩
    · cases ht2
  · exact ⟨rfl, rfl⟩

theorem gcDirsF_ok {fuel : Nat} {t t2 : Tier} {p : Path}
    (h : gcDirsF fuel t p = .ok t2) : t2 = t := by
  induction fuel generalizing p with
  | zero =>
    rw [gcDirsF] at h
    exact (Except.ok.inj h).symm
  | succ n ih =>
    rw [gcDirsF] at h
    split at h
    · exact (Except.ok.inj h).symm
    · split at h
      · exact absurd h (by simp)
      · exact ih h

theorem gcDirs_ok {t t2 : Tier} {p : Path} (h : gcDirs t p = .ok t2) : t2 = t :=
  gcDirsF_ok h

theorem evictLoopF_cache_preserve :
    ∀ (fuel : Nat) (cache : Tier) (files : List CacheEntry)
      (currSize infoSize cacheSize : Int) (out : Tier × List CacheEntry × Int) (p : Path),
      evictLoopF fuel cache files currSize infoSize cacheSize = .ok out →
      p ∉ pathsOf files →
      flookup out.1.dir p = flookup cache.dir p ∧ out.1.store = cache.store := by
  intro fuel
  induction fuel with
  | zero =>
    intro cache files currSize infoSize cacheSize out p hrun hp
    rw [evictLoopF] at hrun
    exact absurd hrun (by simp)
  | succ n ih =>
    intro cache files currSize infoSize cacheSize out p hrun hp
    rw [evictLoopF] at hrun
    split at hrun
    · split at hrun
      · exact absurd hrun (by simp)
      · rename_i victim rest hpm
        dsimp only at hrun
        split at hrun
        · exact absurd hrun (by simp)
        · rename_i cache3 hgc
          obtain rfl := gcDirs_ok hgc
          have hvp : victim.path ≠ p := by
            intro hc
            exact hp (hc ▸ mem_pathsOf.mpr ⟨victim, popMin_mem hpm, rfl⟩)
          have hrest : p ∉ pathsOf rest := by
            intro hc
            obtain ⟨x, hx, hxp⟩ := mem_pathsOf.mp hc
            exact hp (mem_pathsOf.mpr ⟨x, popMin_rest_subset hpm hx, hxp⟩)
          obtain ⟨i1, i2⟩ := ih (tierRemoveD cache victim.path) rest
            (currSize - victim.size) infoSize cacheSize out p hrun hrest
          obtain ⟨j1, j2⟩ := tierRemoveD_preserve (t := cache) hvp
          exact ⟨by rw [i1, j1], by rw [i2, j2]⟩
    · obtain rfl : (cache, files, currSize) = out := by simpa using hrun
      exact ⟨rfl, rfl⟩

end Kafero

namespace Kafero

theorem detachM_frame (s : CState) (p : Path) :
    (detachM s p).cache = s.cache ∧ (detachM s p).base = s.base ∧
    (detachM s p).handles = s.handles ∧ (detachM s p).now = s.now := by
  unfold detachM removeFromCacheM
  split
  · split
    · exact ⟨rfl, rfl, rfl, rfl⟩
    · exact ⟨rfl, rfl, rfl, rfl⟩
  · exact ⟨rfl, rfl, rfl, rfl⟩

theorem addToCacheM_preserve {s s2 : CState} {info : CacheEntry} {p : Path}
    (hrun : addToCacheM s info = .ok s2)
    (hp : p ∉ pathsOf s.files) :
    flookup s2.cache.dir p = flookup s.cache.dir p ∧
    s2.cache.store = s.cache.store ∧
    s2.base = s.base ∧ s2.now = s.now ∧ s2.handles = s.handles := by
  unfold addToCacheM at hrun
  dsimp only at hrun
  split at hrun
  · exact absurd hrun (by simp)
  · rename_i cache2 files2 currSize2 hev
    obtain rfl : { s with
        cache := cache2,
        files := addOrUpdate files2 info,
        currSize := currSize2 + info.size } = s2 := Except.ok.inj hrun
    unfold evictLoop at hev
    obtain ⟨e1, e2⟩ := evictLoopF_cache_preserve (s.files.length + 1) s.cache s.files
      _ info.size s.cacheSize (cache2, files2, currSize2) p hev hp
    exact ⟨e1, e2, rfl, rfl, rfl⟩

theorem closeStep_content {s0 s1 : CState} {i : Nat} {h : HState} {e : CacheEntry}
    {bid : Nat} {cIno : Inode}
    (hh : s0.handles[i]? = some h)
    (hw : h.flag &&& (O_WRONLY ||| O_RDWR) ≠ 0)
    (hbid : h.baseId = some bid)
    (hcdir : flookup s0.cache.dir h.path = some h.cacheId)
    (hcIno : slookup s0.cache.store h.cacheId = some cIno)
    (hinfo : h.info = some e)
    (hfresh : h.path ∉ pathsOf s0.files)
    (hrun : closeStep s0 i = .ok s1) :
    flookup s1.cache.dir h.path = some h.cacheId ∧
    slookup s1.cache.store h.cacheId = some { data := cIno.data, mtime := s0.now + 1 } ∧
    s1.base.dir = s0.base.dir ∧
    slookup s1.base.store bid = some { data := cIno.data, mtime := s0.now + 1 } ∧
    s1.now = s0.now + 1 := by
  have hf : h.flag ≠ 0 := by
    intro h0
    rw [h0] at hw
    exact hw (by decide)
  unfold closeStep at hrun
  dsimp only at hrun
  split at hrun
  · exact absurd hrun (by simp)
  · rename_i h9 hh9
    rw [hh] at hh9
    obtain rfl := Option.some.inj hh9
    split at hrun
    · exact absurd hrun (by simp)
    · rename_i hcl
      split at hrun
      · exact absurd hrun (by simp)
      · rename_i sA hA hsy
        rw [show (syncH { s0 with now := s0.now + 1 } h) =
            (match h.baseId with
             | none => .error .nilDeref
             | some bid =>
               match slookup s0.base.store bid with
               | none => .error .wrapped
               | some _ =>
                 match slookup s0.cache.store h.cacheId with
                 | none => .error .wrapped
                 | some cIno =>
                   .ok ({ { s0 with now := s0.now + 1 } with
                           base := { s0.base with
                             store := sset s0.base.store bid
                               { data := cIno.data, mtime := s0.now + 1 } } },
                        { h with basePos := cIno.data.length })) from by
          unfold syncH; rw [if_neg hf]] at hsy
        rw [hbid] at hsy
        dsimp only at hsy
        split at hsy
        · exact absurd hsy (by simp)
        · rename_i bIno0 hbIno0
          rw [hcIno] at hsy
          dsimp only at hsy
          obtain ⟨rfl, rfl⟩ := Prod.mk.injEq .. ▸ (Except.ok.inj hsy)
          split at hrun
          · exact absurd hrun (by simp)
          · rename_i bid2 hbid2
            dsimp only at hbid2
            obtain rfl := Option.some.inj hbid2
            split at hrun
            · exact absurd hrun (by simp)
            · rename_i bIno hbIno
              dsimp only at hbIno
              rw [slookup_sset_self] at hbIno
              obtain rfl := Option.some.inj hbIno
              rw [hinfo] at hrun
              dsimp only at hrun
              have hcht : tierChtimes s0.cache h.path (s0.now + 1) =
                  { s0.cache with store := (sset s0.cache.store h.cacheId { data := cIno.data, mtime := s0.now + 1 }) } := by
                unfold tierChtimes tierStat tierSetInode
                rw [hcdir]
                dsimp only
                rw [hcIno]
              rw [hcht] at hrun
              obtain ⟨p1, p2, p3, p4, p5⟩ :=
                addToCacheM_preserve hrun (by dsimp only; exact hfresh)
              refine ⟨?_, ?_, ?_, ?_, ?_⟩
              · rw [p1]; exact hcdir
              · rw [p2]
                exact slookup_sset_self s0.cache.store h.cacheId
                  { data := cIno.data, mtime := s0.now + 1 }
              · rw [p3]
              · rw [p3]
                exact slookup_sset_self s0.base.store bid
                  { data := cIno.data, mtime := s0.now + 1 }
              · rw [p4]

end Kafero

namespace Kafero

theorem cacheStatusM_not_miss {s : CState} {p : Path} {lfi : Inode}
    (h : tierStat s.cache p = some lfi) : (cacheStatusM s p).1 ≠ .cacheMiss := by
  unfold cacheStatusM
  rw [h]
  dsimp only
  split
  · simp
  · split
    · split
      · simp
      · split
        · simp
        · simp
    · simp

theorem openROBottom_reads {s : CState} {name : Path} {info : Option CacheEntry}
    {s2 : CState} {cid : Nat}
    (hcid : flookup s.cache.dir name = some cid)
    (hrun : openROBottom s name info = .ok s2) :
    s2 = { s with handles := s.handles ++
      [{ path := name, flag := 0, baseId := flookup s.base.dir name, cacheId := cid
       , basePos := 0, cachePos := 0, info := info, closed := false }] } := by
  unfold openROBottom at hrun
  rw [hcid] at hrun
  dsimp only at hrun
  split at hrun
  · exact absurd hrun (by simp)
  · exact (Except.ok.inj hrun).symm

theorem copy_success_cache (c : Tier) (p : Path) (now : Int) (bIno : Inode) :
    tierChtimes (tierSetInode (tierCreate c p now).1 p { data := bIno.data, mtime := now })
      p bIno.mtime =
    { dir := fset c.dir p c.nextId
    , store := (sset (sset (sset c.store c.nextId { data := [], mtime := now }) c.nextId { data := bIno.data, mtime := now }) c.nextId { data := bIno.data, mtime := bIno.mtime })
    , nextId := c.nextId + 1 } := by
  simp [tierCreate, tierSetInode, tierChtimes, tierStat, flookup_fset_self, slookup_sset_self]

end Kafero

namespace Kafero

theorem openROStep_reads {s : CState} {p : Path} {s2 : CState} {inoC inoB : Inode}
    (hC : tierStat s.cache p = some inoC)
    (hB : tierStat s.base p = some inoB)
    (hrun : openROStep s p = .ok s2) :
    ∃ hNew ino, s2.handles = s.handles ++ [hNew] ∧ hNew.path = p ∧
      hNew.cachePos = 0 ∧ hNew.closed = false ∧
      slookup s2.cache.store hNew.cacheId = some ino ∧
      (ino.data = inoC.data ∨ ino.data = inoB.data) := by
  obtain ⟨hfc, hfb, hfh, hfn⟩ := detachM_frame { s with now := s.now + 1 } p
  unfold openROStep at hrun
  dsimp only at hrun
  generalize hgen : detachM { s with now := s.now + 1 } p = s1 at hrun hfc hfb hfh
  have hfc' : s1.cache = s.cache := hfc
  have hfb' : s1.base = s.base := hfb
  have hfh' : s1.handles = s.handles := hfh
  have hC1 : tierStat s1.cache p = some inoC := by rw [hfc']; exact hC
  have hB1 : tierStat s1.base p = some inoB := by rw [hfb']; exact hB
  have hC' := hC
  unfold tierStat at hC'
  cases hd : flookup s.cache.dir p with
  | none => rw [hd] at hC'; exact absurd hC' (by simp)
  | some cid0 =>
    rw [hd] at hC'
    dsimp only at hC'
    split at hrun
    · -- cacheLocal
      have hcd1 : flookup s1.cache.dir p = some cid0 := by rw [hfc']; exact hd
      have hbot := openROBottom_reads hcd1 hrun
      refine ⟨{ path := p, flag := 0, baseId := flookup s1.base.dir p, cacheId := cid0
              , basePos := 0, cachePos := 0
              , info := getCacheFileM { s with now := s.now + 1 } p, closed := false },
        inoC, ?_, rfl, rfl, rfl, ?_, Or.inl rfl⟩
      · rw [hbot]
        dsimp only
        rw [hfh']
      · rw [hbot]
        dsimp only
        rw [hfc']
        exact hC'
    · -- cacheHit
      have hcd1 : flookup s1.cache.dir p = some cid0 := by rw [hfc']; exact hd
      have hbot := openROBottom_reads hcd1 hrun
      refine ⟨{ path := p, flag := 0, baseId := flookup s1.base.dir p, cacheId := cid0
              , basePos := 0, cachePos := 0
              , info := getCacheFileM { s with now := s.now + 1 } p, closed := false },
        inoC, ?_, rfl, rfl, rfl, ?_, Or.inl rfl⟩
      · rw [hbot]
        dsimp only
        rw [hfh']
      · rw [hbot]
        dsimp only
        rw [hfc']
        exact hC'
    · -- cacheMiss: impossible, the cache tier has the path
      rename_i heq
      exact absurd heq (cacheStatusM_not_miss hC1)
    · -- cacheStale: copy-on-read refreshes the cache from the base
      have hcopy : copyToCacheM s1 p .success =
          ({ s1 with cache := tierChtimes (tierSetInode (tierCreate s1.cache p s1.now).1 p { data := inoB.data, mtime := s1.now }) p inoB.mtime },
           .ok (some { path := p, size := Int.ofNat inoB.data.length, lastAccessTime := s1.now })) := by
        unfold copyToCacheM
        rw [hB1]
      rw [hcopy] at hrun
      dsimp only at hrun
      rw [copy_success_cache] at hrun
      have hcd2 : flookup ({ s1 with cache :=
          { dir := fset s1.cache.dir p s1.cache.nextId
          , store := (sset (sset (sset s1.cache.store s1.cache.nextId { data := [], mtime := s1.now }) s1.cache.nextId { data := inoB.data, mtime := s1.now }) s1.cache.nextId { data := inoB.data, mtime := inoB.mtime })
          , nextId := s1.cache.nextId + 1 } } : CState).cache.dir p = some s1.cache.nextId := by
        dsimp only
        exact flookup_fset_self s1.cache.dir p s1.cache.nextId
      have hbot := openROBottom_reads hcd2 hrun
      refine ⟨{ path := p, flag := 0, baseId := flookup s1.base.dir p
              , cacheId := s1.cache.nextId, basePos := 0, cachePos := 0
              , info := some { path := p, size := Int.ofNat inoB.data.length
                             , lastAccessTime := s1.now }, closed := false },
        { data := inoB.data, mtime := inoB.mtime }, ?_, rfl, rfl, rfl, ?_, Or.inr rfl⟩
      · rw [hbot]
        dsimp only
        rw [hfh']
      · rw [hbot]
        dsimp only
        exact slookup_sset_self _ s1.cache.nextId { data := inoB.data, mtime := inoB.mtime }

end Kafero

namespace Kafero

/-- C3: Sync on a handle whose flags include a write capability copies the
cache file's bytes into the base inode (stamped with the current clock)
and leaves the cache tier and the handle's cache offset untouched; Sync on
a read-only handle is a no-op returning the state and handle unchanged;
and after a successful Close of a writing handle, a subsequent Open of the
same path hands out a fresh handle at cache offset zero whose cache inode
holds exactly the bytes the writer left in the cache file
(read-your-writes). -/
theorem c3_write_through :
    (∀ (s : CState) (h : HState) (bid : Nat) (cIno : Inode) (sB : CState) (hB : HState),
      h.flag &&& (O_WRONLY ||| O_RDWR) ≠ 0 →
      h.baseId = some bid →
      slookup s.cache.store h.cacheId = some cIno →
      syncH s h = .ok (sB, hB) →
      slookup sB.base.store bid = some { data := cIno.data, mtime := s.now } ∧
      sB.base.dir = s.base.dir ∧ sB.cache = s.cache ∧ hB.cachePos = h.cachePos) ∧
    (∀ (s : CState) (h : HState), h.flag = 0 → syncH s h = .ok (s, h)) ∧
    (∀ (s0 : CState) (i : Nat) (h : HState) (e : CacheEntry) (bid : Nat)
       (cIno : Inode) (s1 s2 : CState),
      s0.handles[i]? = some h →
      h.flag &&& (O_WRONLY ||| O_RDWR) ≠ 0 →
      h.baseId = some bid →
      flookup s0.base.dir h.path = some bid →
      flookup s0.cache.dir h.path = some h.cacheId →
      slookup s0.cache.store h.cacheId = some cIno →
      h.info = some e →
      h.path ∉ pathsOf s0.files →
      closeStep s0 i = .ok s1 →
      openROStep s1 h.path = .ok s2 →
      ∃ hNew ino, s2.handles = s1.handles ++ [hNew] ∧ hNew.path = h.path ∧
        hNew.cachePos = 0 ∧ hNew.closed = false ∧
        slookup s2.cache.store hNew.cacheId = some ino ∧
        ino.data = cIno.data) := by
  refine ⟨?_, ?_, ?_⟩
  · intro s h bid cIno sB hB hw hbid hcIno hrun
    have hf : h.flag ≠ 0 := by
      intro h0
      rw [h0] at hw
      exact hw (by decide)
    unfold syncH at hrun
    rw [if_neg hf, hbid] at hrun
    dsimp only at hrun
    split at hrun
    · exact absurd hrun (by simp)
    · rename_i bIno0 hbIno0
      rw [hcIno] at hrun
      dsimp only at hrun
      obtain ⟨rfl, rfl⟩ := Prod.mk.injEq .. ▸ (Except.ok.inj hrun)
      exact ⟨slookup_sset_self s.base.store bid { data := cIno.data, mtime := s.now },
        rfl, rfl, rfl⟩
  · intro s h hf
    unfold syncH
    rw [if_pos hf]
  · intro s0 i h e bid cIno s1 s2 hh hw hbid hbdir hcdir hcIno hinfo hfresh hcls hopn
    obtain ⟨q1, q2, q3, q4, q5⟩ :=
      closeStep_content hh hw hbid hcdir hcIno hinfo hfresh hcls
    have hCs1 : tierStat s1.cache h.path =
        some { data := cIno.data, mtime := s0.now + 1 } := by
      unfold tierStat
      rw [q1]
      dsimp only
      exact q2
    have hBs1 : tierStat s1.base h.path =
        some { data := cIno.data, mtime := s0.now + 1 } := by
      unfold tierStat
      rw [q3, hbdir]
      dsimp only
      exact q4
    obtain ⟨hNew, ino, r1, r2, r3, r4, r5, r6⟩ := openROStep_reads hCs1 hBs1 hopn
    refine ⟨hNew, ino, r1, r2, r3, r4, r5, ?_⟩
    cases r6 with
    | inl h6 => exact h6
    | inr h6 => exact h6

end Kafero

namespace Kafero

/-- A concrete write-capable handle on path [1] whose cache file holds the
written bytes [7, 7]. -/
def c3H : HState :=
  { path := [1], flag := 2, baseId := some 0, cacheId := 0, basePos := 0, cachePos := 2
  , info := some { path := [1], size := 0, lastAccessTime := 1 }, closed := false }

/-- A concrete overlay state in which the handle c3H has written [7, 7]
to the cache file while the base file is still empty. -/
def c3S0 : CState :=
  { base := { dir := [([1], 0)], store := [(0, { data := [], mtime := 1 })], nextId := 1 }
  , cache := { dir := [([1], 0)], store := [(0, { data := [7, 7], mtime := 1 })], nextId := 1 }
  , cacheSize := 100, cacheTime := 0, currSize := 0, files := [], now := 5
  , handles := [c3H] }

theorem c3_write_through_witness :
    (∃ (sB : CState) (hB : HState),
       syncH c3S0 c3H = .ok (sB, hB) ∧
       slookup sB.base.store 0 = some { data := [7, 7], mtime := 5 } ∧
       sB.cache = c3S0.cache ∧ hB.cachePos = 2) ∧
    (syncH c3S0 { c3H with flag := 0 } = .ok (c3S0, { c3H with flag := 0 })) ∧
    (∃ (s1 s2 : CState) (hNew : HState) (ino : Inode),
       closeStep c3S0 0 = .ok s1 ∧
       openROStep s1 [1] = .ok s2 ∧
       s2.handles = s1.handles ++ [hNew] ∧ hNew.path = [1] ∧ hNew.cachePos = 0 ∧
       hNew.closed = false ∧ slookup s2.cache.store hNew.cacheId = some ino ∧
       ino.data = [7, 7]) := by
  obtain ⟨pa, pb, pc⟩ := c3_write_through
  refine ⟨?_, pb c3S0 { c3H with flag := 0 } rfl, ?_⟩
  · cases hsy : syncH c3S0 c3H with
    | error e =>
      have hok : exceptOk (syncH c3S0 c3H) = true := by rfl
      rw [hsy] at hok
      exact absurd hok (by simp [exceptOk])
    | ok pr =>
      obtain ⟨sB, hB⟩ := pr
      obtain ⟨w1, w2, w3, w4⟩ :=
        pa c3S0 c3H 0 { data := [7, 7], mtime := 1 } sB hB (by decide) rfl rfl hsy
      exact ⟨sB, hB, rfl, w1, w3, w4⟩
  · have hcomp : exceptOk ((closeStep c3S0 0).bind (fun t => openROStep t [1])) = true := by
      rfl
    cases hcl : closeStep c3S0 0 with
    | error e =>
      rw [hcl] at hcomp
      exact absurd hcomp (by simp [Except.bind, exceptOk])
    | ok s1 =>
      rw [hcl] at hcomp
      simp only [Except.bind] at hcomp
      cases hop : openROStep s1 [1] with
      | error e =>
        rw [hop] at hcomp
        exact absurd hcomp (by simp [exceptOk])
      | ok s2 =>
        obtain ⟨hNew, ino, r1, r2, r3, r4, r5, r6⟩ :=
          pc c3S0 0 c3H { path := [1], size := 0, lastAccessTime := 1 } 0
            { data := [7, 7], mtime := 1 } s1 s2 rfl (by decide) rfl rfl rfl rfl rfl
            (by decide) hcl hop
        exact ⟨s1, s2, hNew, ino, rfl, hop, r1, r2, r3, r4, r5, r6⟩

end Kafero

namespace Kafero

theorem mem_map_fst_fset {d : List (Path × Nat)} {p q : Path} {i : Nat}
    (h : q ∈ (fset d p i).map Prod.fst) : q ∈ d.map Prod.fst ∨ q = p := by
  induction d with
  | nil =>
    simp only [fset, List.map_cons, List.map_nil, List.mem_singleton] at h
    exact Or.inr h
  | cons pr rest ih =>
    obtain ⟨x, j⟩ := pr
    by_cases hx : x = p
    · rw [fset, if_pos hx] at h
      simp only [List.map_cons, List.mem_cons] at h ⊢
      cases h with
      | inl h1 => exact Or.inr h1
      | inr h1 => exact Or.inl (Or.inr h1)
    · rw [fset, if_neg hx] at h
      simp only [List.map_cons, List.mem_cons] at h ⊢
      cases h with
      | inl h1 => exact Or.inl (Or.inl h1)
      | inr h1 =>
        cases ih h1 with
        | inl h2 => exact Or.inl (Or.inr h2)
        | inr h2 => exact Or.inr h2

theorem nodup_map_fst_fset {d : List (Path × Nat)} {p : Path} {i : Nat}
    (hnd : (d.map Prod.fst).Nodup) : ((fset d p i).map Prod.fst).Nodup := by
  induction d with
  | nil => simp [fset]
  | cons pr rest ih =>
    obtain ⟨x, j⟩ := pr
    simp only [List.map_cons, List.nodup_cons] at hnd
    obtain ⟨hx1, hx2⟩ := hnd
    by_cases hx : x = p
    · subst hx
      rw [fset, if_pos rfl]
      simp only [List.map_cons, List.nodup_cons]
      exact ⟨hx1, hx2⟩
    · rw [fset, if_neg hx]
      simp only [List.map_cons, List.nodup_cons]
      refine ⟨?_, ih hx2⟩
      intro hmem
      cases mem_map_fst_fset hmem with
      | inl h2 => exact hx1 h2
      | inr h2 => exact hx h2

theorem removeD_after_create (c : Tier) (name : Path) (now : Int) (ino : Inode)
    (hnd : (c.dir.map Prod.fst).Nodup) :
    flookup (tierRemoveD (tierSetInode (tierCreate c name now).1 name ino) name).dir
      name = none := by
  have hset : tierSetInode (tierCreate c name now).1 name ino =
      { dir := fset c.dir name c.nextId,
        store := (sset (sset c.store c.nextId { data := [], mtime := now }) c.nextId ino),
        nextId := c.nextId + 1 } := by
    simp [tierCreate, tierSetInode, flookup_fset_self]
  rw [hset]
  have hrd : tierRemoveD
      ({ dir := fset c.dir name c.nextId,
         store := (sset (sset c.store c.nextId { data := [], mtime := now }) c.nextId ino),
         nextId := c.nextId + 1 } : Tier) name =
      { dir := ferase (fset c.dir name c.nextId) name,
        store := (sset (sset c.store c.nextId { data := [], mtime := now }) c.nextId ino),
        nextId := c.nextId + 1 } := by
    simp [tierRemoveD, tierRemove, flookup_fset_self]
  rw [hrd]
  exact flookup_ferase_self (nodup_map_fst_fset hnd)

end Kafero

namespace Kafero

/-- C5: when the copy-on-read stream fails, or the copied byte count
differs from the base file's stat size, copyToCache removes the partially
written cache file, reports the wrapped copy error respectively EIO for
the count mismatch, leaves the index, currSize and the handle table
unchanged, and the path classifies as a cache MISS afterwards. -/
theorem c5_copy_failure_atomicity :
    (∀ (s : CState) (name : Path) (part : Bytes) (bIno : Inode),
      (s.cache.dir.map Prod.fst).Nodup →
      tierStat s.base name = some bIno →
      (copyToCacheM s name (.copyFailed part)).2 = .error .wrapped ∧
      (copyToCacheM s name (.copyFailed part)).1.files = s.files ∧
      (copyToCacheM s name (.copyFailed part)).1.currSize = s.currSize ∧
      (copyToCacheM s name (.copyFailed part)).1.handles = s.handles ∧
      flookup (copyToCacheM s name (.copyFailed part)).1.cache.dir name = none ∧
      (cacheStatusM (copyToCacheM s name (.copyFailed part)).1 name).1 = .cacheMiss) ∧
    (∀ (s : CState) (name : Path) (part : Bytes) (n : Nat) (bIno : Inode),
      (s.cache.dir.map Prod.fst).Nodup →
      tierStat s.base name = some bIno →
      bIno.data.length ≠ n →
      (copyToCacheM s name (.shortCount part n)).2 = .error .eio ∧
      (copyToCacheM s name (.shortCount part n)).1.files = s.files ∧
      (copyToCacheM s name (.shortCount part n)).1.currSize = s.currSize ∧
      (copyToCacheM s name (.shortCount part n)).1.handles = s.handles ∧
      flookup (copyToCacheM s name (.shortCount part n)).1.cache.dir name = none ∧
      (cacheStatusM (copyToCacheM s name (.shortCount part n)).1 name).1 = .cacheMiss) := by
  constructor
  · intro s name part bIno hnd hB
    have hrm := removeD_after_create s.cache name s.now { data := part, mtime := s.now } hnd
    have hst : tierStat (tierRemoveD (tierSetInode (tierCreate s.cache name s.now).1 name
        { data := part, mtime := s.now }) name) name = none := by
      unfold tierStat
      rw [hrm]
    unfold copyToCacheM
    rw [hB]
    dsimp only
    refine ⟨rfl, rfl, rfl, rfl, hrm, ?_⟩
    unfold cacheStatusM
    dsimp only
    rw [hst]
  · intro s name part n bIno hnd hB hne
    have hrm := removeD_after_create s.cache name s.now { data := part, mtime := s.now } hnd
    have hst : tierStat (tierRemoveD (tierSetInode (tierCreate s.cache name s.now).1 name
        { data := part, mtime := s.now }) name) name = none := by
      unfold tierStat
      rw [hrm]
    unfold copyToCacheM
    rw [hB]
    dsimp only
    rw [if_neg hne]
    refine ⟨rfl, rfl, rfl, rfl, hrm, ?_⟩
    unfold cacheStatusM
    dsimp only
    rw [hst]

theorem c5_copy_failure_witness :
    ((copyToCacheM c3S0 [1] (.copyFailed [9])).2 = .error .wrapped ∧
     (copyToCacheM c3S0 [1] (.copyFailed [9])).1.files = c3S0.files ∧
     (copyToCacheM c3S0 [1] (.copyFailed [9])).1.currSize = c3S0.currSize ∧
     (copyToCacheM c3S0 [1] (.copyFailed [9])).1.handles = c3S0.handles ∧
     flookup (copyToCacheM c3S0 [1] (.copyFailed [9])).1.cache.dir [1] = none ∧
     (cacheStatusM (copyToCacheM c3S0 [1] (.copyFailed [9])).1 [1]).1 = .cacheMiss) ∧
    ((copyToCacheM c3S0 [1] (.shortCount [9] 3)).2 = .error .eio ∧
     (copyToCacheM c3S0 [1] (.shortCount [9] 3)).1.files = c3S0.files ∧
     (copyToCacheM c3S0 [1] (.shortCount [9] 3)).1.currSize = c3S0.currSize ∧
     (copyToCacheM c3S0 [1] (.shortCount [9] 3)).1.handles = c3S0.handles ∧
     flookup (copyToCacheM c3S0 [1] (.shortCount [9] 3)).1.cache.dir [1] = none ∧
     (cacheStatusM (copyToCacheM c3S0 [1] (.shortCount [9] 3)).1 [1]).1 = .cacheMiss) := by
  obtain ⟨p1, p2⟩ := c5_copy_failure_atomicity
  exact ⟨p1 c3S0 [1] [9] { data := [], mtime := 1 } (by decide) rfl,
    p2 c3S0 [1] [9] 3 { data := [], mtime := 1 } (by decide) rfl (by decide)⟩

end Kafero

namespace Kafero

/-- C6 counterexample: a cache tier whose .cacheindex file holds
undecodable bytes makes construction fail with the unmarshalling error
instead of falling back to the walk-based rebuild. -/
theorem c6_counterexample :
    newSizeCacheFSM emptyTier
      { dir := [([0], 0)], store := [(0, { data := [5], mtime := 0 })], nextId := 1 }
      100 0 = .error .unmarshal := by
  rfl

/-- C6 amended: only a missing .cacheindex file falls back to rebuilding
the index from a walk of the cache tier; when the file exists but its
contents cannot be deserialized, construction fails with the
unmarshalling error. -/
theorem c6_amended :
    (∀ (base cache : Tier) (cs ct : Int),
      tierExists cache cacheIndexPath = false →
      newSizeCacheFSM base cache cs ct =
        .ok (mkFsState base cache (if cs < 0 then 0 else cs) ct (walkEntries cache))) ∧
    (∀ (base cache : Tier) (cs ct : Int) (ino : Inode),
      tierStat cache cacheIndexPath = some ino →
      decodeIndex ino.data = none →
      newSizeCacheFSM base cache cs ct = .error .unmarshal) := by
  constructor
  · intro base cache cs ct h
    simp [newSizeCacheFSM, h]
  · intro base cache cs ct ino hst hdec
    have hex : tierExists cache cacheIndexPath = true := by
      unfold tierExists
      unfold tierStat at hst
      cases hfl : flookup cache.dir cacheIndexPath with
      | none => rw [hfl] at hst; exact absurd hst (by simp)
      | some i => simp [hfl]
    simp [newSizeCacheFSM, hex, hst, hdec]

theorem c6_amended_witness :
    (newSizeCacheFSM emptyTier
      { dir := [([1], 0)], store := [(0, { data := [7], mtime := 3 })], nextId := 1 }
      100 0 =
      .ok (mkFsState emptyTier
        { dir := [([1], 0)], store := [(0, { data := [7], mtime := 3 })], nextId := 1 }
        100 0 (walkEntries
          { dir := [([1], 0)], store := [(0, { data := [7], mtime := 3 })], nextId := 1 }))) ∧
    (newSizeCacheFSM emptyTier
      { dir := [([0], 0)], store := [(0, { data := [5], mtime := 0 })], nextId := 1 }
      100 0 = .error .unmarshal) := by
  obtain ⟨p1, p2⟩ := c6_amended
  constructor
  · have := p1 emptyTier
      { dir := [([1], 0)], store := [(0, { data := [7], mtime := 3 })], nextId := 1 }
      100 0 (by decide)
    simpa using this
  · exact p2 emptyTier
      { dir := [([0], 0)], store := [(0, { data := [5], mtime := 0 })], nextId := 1 }
      100 0 { data := [5], mtime := 0 } rfl rfl

end Kafero

namespace Kafero

theorem decodeInt_encodeInt (i : Int) (rest : List Nat) :
    decodeInt (encodeInt i ++ rest) = some (i, rest) := by
  cases i with
  | ofNat n => rfl
  | negSucc n => rfl

theorem decodeEntry_encodeEntry (e : CacheEntry) (rest : List Nat) :
    decodeEntry (encodeEntry e ++ rest) = some (e, rest) := by
  simp only [encodeEntry, List.cons_append, decodeEntry, List.append_assoc]
  rw [if_neg (by simp only [List.length_append]; omega)]
  rw [List.drop_left, decodeInt_encodeInt]
  dsimp only
  rw [decodeInt_encodeInt]
  dsimp only
  rw [List.take_left]

theorem decodeEntries_encode (l : List CacheEntry) (rest : List Nat) :
    decodeEntries l.length ((l.map encodeEntry).flatten ++ rest) = some (l, rest) := by
  induction l generalizing rest with
  | nil => rfl
  | cons e t ih =>
    simp only [List.map_cons, List.flatten_cons, List.length_cons, List.append_assoc]
    rw [decodeEntries, decodeEntry_encodeEntry]
    dsimp only
    rw [ih]

theorem decodeIndex_encodeIndex (l : List CacheEntry) :
    decodeIndex (encodeIndex l) = some l := by
  have h := decodeEntries_encode l []
  rw [List.append_nil] at h
  unfold encodeIndex decodeIndex
  dsimp only
  rw [h]
  dsimp only
  rw [if_pos rfl]

theorem foldl_addOrUpdate (l : List CacheEntry) :
    ∀ acc : List CacheEntry, (pathsOf (acc ++ l)).Nodup →
      l.foldl addOrUpdate acc = acc ++ l := by
  induction l with
  | nil =>
    intro acc h
    simp
  | cons e t ih =>
    intro acc h
    rw [List.foldl_cons]
    have hnotin : e.path ∉ pathsOf acc := by
      unfold pathsOf at h ⊢
      rw [List.map_append] at h
      simp only [List.map_cons] at h
      obtain ⟨h1, h2, h3⟩ := List.nodup_append.mp h
      intro hmem
      exact h3 hmem (by simp)
    have h' : (pathsOf ((acc ++ [e]) ++ t)).Nodup := by
      rw [List.append_assoc]
      exact h
    rw [addOrUpdate_of_not_mem hnotin, ih (acc ++ [e]) h', List.append_assoc]
    rfl

theorem buildIndexSet_id {l : List CacheEntry} (hnd : (pathsOf l).Nodup) :
    buildIndexSet l = l := by
  have h := foldl_addOrUpdate l [] (by simpa using hnd)
  simpa [buildIndexSet] using h

end Kafero

namespace Kafero

/-- C7: serializing the index entries the way the overlay's Close does
(ascending score order) and deserializing them the way construction does
round-trips exactly; and reconstructing an overlay from the cache tier
written by Close yields the same currSize and the same set of entries as
before. -/
theorem c7_round_trip :
    ∀ (s : CState) (cs ct : Int),
      0 ≤ cs →
      s.currSize = sumSizes s.files →
      (pathsOf s.files).Nodup →
      decodeIndex (encodeIndex (sortByScore s.files)) = some (sortByScore s.files) ∧
      (∀ e, e ∈ sortByScore s.files ↔ e ∈ s.files) ∧
      (∃ s2, newSizeCacheFSM s.base (fsCloseM s).cache cs ct = .ok s2 ∧
        s2.currSize = s.currSize ∧
        (∀ e, e ∈ s2.files ↔ e ∈ s.files)) := by
  intro s cs ct hcs hsum hnd
  have hperm : (sortByScore s.files).Perm s.files := List.perm_insertionSort _ _
  have hdec := decodeIndex_encodeIndex (sortByScore s.files)
  refine ⟨hdec, fun e => hperm.mem_iff, ?_⟩
  have hnd2 : (pathsOf (sortByScore s.files)).Nodup := by
    have h0 : (pathsOf s.files).Nodup := hnd
    unfold pathsOf at h0 ⊢
    exact ((hperm.map (fun e => e.path)).nodup_iff).mpr h0
  have hidx : tierStat (fsCloseM s).cache cacheIndexPath =
      some { data := encodeIndex (sortByScore s.files), mtime := s.now } := by
    simp [fsCloseM, tierCreate, tierSetInode, tierStat, flookup_fset_self,
      slookup_sset_self]
  have hex : tierExists (fsCloseM s).cache cacheIndexPath = true := by
    simp [fsCloseM, tierCreate, tierSetInode, tierExists, flookup_fset_self]
  have hclamp : (if cs < 0 then (0 : Int) else cs) = cs := if_neg (by omega)
  refine ⟨mkFsState s.base (fsCloseM s).cache cs ct (sortByScore s.files), ?_, ?_, ?_⟩
  · simp only [newSizeCacheFSM, hclamp, hex, if_true, hidx, hdec]
  · unfold mkFsState
    dsimp only
    rw [hsum]
    unfold sumSizes
    exact (hperm.map (fun e => e.size)).sum_eq
  · intro e
    unfold mkFsState
    dsimp only
    rw [buildIndexSet_id hnd2]
    exact hperm.mem_iff

/-- A concrete overlay state with one index entry for the round-trip
witness. -/
def c7S : CState :=
  { base := emptyTier
  , cache := { dir := [([1], 0)], store := [(0, { data := [7, 7], mtime := 3 })], nextId := 1 }
  , cacheSize := 100, cacheTime := 0, currSize := 2
  , files := [{ path := [1], size := 2, lastAccessTime := 3 }], now := 9, handles := [] }

theorem c7_round_trip_witness :
    decodeIndex (encodeIndex (sortByScore c7S.files)) = some (sortByScore c7S.files) ∧
    ∃ s2, newSizeCacheFSM c7S.base (fsCloseM c7S).cache 100 0 = .ok s2 ∧
      s2.currSize = c7S.currSize ∧ (∀ e, e ∈ s2.files ↔ e ∈ c7S.files) := by
  obtain ⟨h1, h2, s2, h3, h4, h5⟩ :=
    c7_round_trip c7S 100 0 (by decide) (by decide) (by decide)
  exact ⟨h1, s2, h3, h4, h5⟩

end Kafero
